import Mathlib

/-!
Verification development for the graph-traversal engine of an algorithm
visualizer.  The engine (src/app/algorithms/{dfs,bfs,dijkstra}.ts and the
toposort half of index.ts) is shallowly embedded below: each TypeScript
function becomes a Lean function on explicit state, JavaScript arrays become
lists, JavaScript `Set`/`Map`/object records become insertion-ordered lists or
total functions into `Option`, and JavaScript numbers (which the engine uses
only for edge weights, distances, `Infinity`, and visit indices) are modelled
as `WithTop ℤ` with `⊤` playing the role of `Infinity`.  While-loops are
embedded as fuel-indexed structural recursions; every `run` entry point passes
a fuel that is proved (or directly computed) to dominate the loop's decreasing
measure, so the fuel never runs out on any input.
-/

/-- JavaScript numbers as used by the engine: either a finite integer value or
`Infinity` (`⊤`).  The engine performs only addition and order comparisons on
them, and on those operations `WithTop ℤ` agrees with IEEE semantics away from
`NaN` (which no in-variant run produces). -/
abbrev JsNum := WithTop ℤ

/-- Rendering of a `JsNum` by JavaScript `toString` / template-literal
stringification: `Infinity` prints as `"Infinity"`, finite values print as
decimal integers. -/
def jsNumToString : JsNum → String
  | ⊤ => "Infinity"
  | (z : ℤ) => toString z

/-- `interface GraphNode` of types.ts. -/
structure GraphNode where
  id : String
deriving DecidableEq, Repr

/-- `interface GraphEdge` of types.ts; `weight` is the optional field. -/
structure GraphEdge where
  node1 : String
  node2 : String
  weight : Option ℤ := none
deriving DecidableEq, Repr

/-- `interface GraphData` of types.ts. -/
structure GraphData where
  nodes : List GraphNode
  edges : List GraphEdge
  isDirected : Bool
  isWeighted : Bool
deriving DecidableEq, Repr

/-- The node ids of a graph, in declared order. -/
def GraphData.nodeIds (g : GraphData) : List String :=
  g.nodes.map GraphNode.id

/-- `graph.nodes.some(n => n.id === x)`. -/
def GraphData.hasNode (g : GraphData) (x : String) : Bool :=
  g.nodes.any (fun n => n.id = x)

/-- Every id the algorithms can ever touch: declared node ids together with
both endpoints of every edge.  Used only to bound the loops' fuel. -/
def GraphData.universeIds (g : GraphData) : List String :=
  g.nodeIds ++ g.edges.map GraphEdge.node1 ++ g.edges.map GraphEdge.node2

/-- The graph invariant stated in the specification: every edge endpoint is a
declared node id and node ids are pairwise distinct. -/
def GraphData.Wf (g : GraphData) : Prop :=
  (∀ e ∈ g.edges, g.hasNode e.node1 ∧ g.hasNode e.node2) ∧ g.nodeIds.Nodup

instance (g : GraphData) : Decidable g.Wf := by
  unfold GraphData.Wf; infer_instance

/-- The weighted-graph side condition of the invariant: every edge carries a
weight. -/
def GraphData.Weighted (g : GraphData) : Prop :=
  ∀ e ∈ g.edges, e.weight.isSome

instance (g : GraphData) : Decidable g.Weighted := by
  unfold GraphData.Weighted; infer_instance

/-- All edge weights non-negative. -/
def GraphData.NonnegWeights (g : GraphData) : Prop :=
  ∀ e ∈ g.edges, ∀ w, e.weight = some w → 0 ≤ w

instance (g : GraphData) : Decidable g.NonnegWeights := by
  unfold GraphData.NonnegWeights; infer_instance

/-- `interface TraversalLogEntry` of types.ts.  `nodeAnnotations` is optional
in the interface but every algorithm in scope supplies it, so it is modelled
as a total map from ids to optional labels (a missing object key is `none`). -/
structure TraversalLogEntry where
  current : String
  visited : List String
  «structure» : List String
  display : String
  nodeAnnotations : String → Option String

/-- `interface TraversalResult` of types.ts.  `log` maps a node id to a
JavaScript number (a traversal index or a distance); ids absent from the
record map to `none`. -/
structure TraversalResult where
  traversal : List String
  log : String → Option JsNum
  steps : List TraversalLogEntry
  display : Option String := none
  nodeAnnotations : String → Option String

/-! ## Depth-first search (dfs.ts) -/

/-- The neighbor computation of `processComponent` in dfs.ts: edges touching
`node` (respecting directedness), mapped to the opposite endpoint, with
already-visited ids filtered out. -/
def dfsNeighbors (g : GraphData) (visited : List String) (node : String) : List String :=
  ((g.edges.filter (fun e => e.node1 = node || (!g.isDirected && e.node2 = node))).map
    (fun e => if e.node1 = node then e.node2 else e.node1)).filter
    (fun n => !visited.contains n)

/-- The mutable locals of `runDFS`, threaded explicitly.  `visited` is the
insertion-ordered content of the JavaScript `Set`. -/
structure DfsState where
  visited : List String
  result : List String
  log : String → Option JsNum
  steps : List TraversalLogEntry
  fullDisplay : List String
  nodeAnnotations : String → Option String

/-- The `while (stack.length > 0)` loop of `processComponent`.  The Lean list
`stack` holds the JavaScript array reversed, so that `pop` is `head`; the
recorded `structure` snapshot is reversed back into array order.  `fuel`
counts remaining loop iterations; `runDFS` passes enough fuel for the loop to
drain any stack (each iteration strictly decreases
`|universe \ visited| * (|edges| + 1) + |stack|`). -/
def dfsLoop (g : GraphData) : ℕ → DfsState → List String → DfsState
  | 0, st, _ => st
  | _ + 1, st, [] => st
  | fuel + 1, st, node :: rest =>
    if st.visited.contains node then
      dfsLoop g fuel st rest
    else
      let visited' := st.visited ++ [node]
      let log' := fun k => if k = node then some ((st.result.length : ℤ) : JsNum) else st.log k
      let result' := st.result ++ [node]
      let annot' := fun k => if k = node then some (toString result'.length) else st.nodeAnnotations k
      let structureList := rest.reverse
      let stepDisplay :=
        "Current: " ++ node ++ " | Stack: " ++ String.intercalate (" â†’ ") structureList
          ++ " | Visited: " ++ String.intercalate (", ") visited'
      let st' : DfsState :=
        { visited := visited'
          result := result'
          log := log'
          steps := st.steps ++ [⟨node, visited', structureList, stepDisplay, annot'⟩]
          fullDisplay := st.fullDisplay ++ [stepDisplay]
          nodeAnnotations := annot' }
      dfsLoop g fuel st' (dfsNeighbors g visited' node ++ rest)

/-- Fuel that dominates the dfs loop measure from any reachable state with a
singleton initial stack. -/
def dfsFuel (g : GraphData) : ℕ :=
  g.universeIds.length * (g.edges.length + 1) + 1

/-- The final sweep of `runDFS`: launch `processComponent` from every not yet
visited node, in declared order. -/
def dfsSweep (g : GraphData) (fuel : ℕ) : List GraphNode → DfsState → DfsState
  | [], st => st
  | n :: ns, st =>
    dfsSweep g fuel ns (if st.visited.contains n.id then st else dfsLoop g fuel st [n.id])

/-- `runDFS` of dfs.ts.  A JavaScript `throw` is modelled as `Except.error`.
The preferred-start guard `startId && graph.nodes.some(...)` is falsy when
`startId` is `undefined` or the empty string. -/
def runDFS (g : GraphData) (startId : Option String) : Except String TraversalResult :=
  if g.isWeighted then Except.error ("DFS does not run on a weighted graph")
  else
    let st0 : DfsState := ⟨[], [], fun _ => none, [], [], fun _ => none⟩
    let st1 :=
      match startId with
      | none => st0
      | some s => if s = "" then st0
          else if g.hasNode s then dfsLoop g (dfsFuel g) st0 [s] else st0
    let stF := dfsSweep g (dfsFuel g) g.nodes st1
    Except.ok
      { traversal := stF.result
        log := stF.log
        steps := stF.steps
        display := some (String.intercalate ("\n") stF.fullDisplay)
        nodeAnnotations := stF.nodeAnnotations }

/-! ## Breadth-first search (bfs.ts) -/

/-- The neighbor computation of `runBFS`: edges touching `v` (respecting
directedness) mapped to the opposite endpoint; unlike DFS there is no
visited filter here, discovery is checked per neighbor inside the loop. -/
def bfsNeighbors (g : GraphData) (v : String) : List String :=
  (g.edges.filter (fun e => e.node1 = v || (!g.isDirected && e.node2 = v))).map
    (fun e => if e.node1 = v then e.node2 else e.node1)

/-- The mutable locals of `runBFS`.  `discovered` lists the ids mapped to
`true` in the JavaScript `Map`, in insertion order; `queue` holds the array
with its front at the list head. -/
structure BfsState where
  discovered : List String
  parent : String → Option String
  result : List String
  log : String → Option JsNum
  steps : List TraversalLogEntry
  fullDisplay : List String
  nodeAnnotations : String → Option String
  queue : List String

/-- The `for (const u of neighbors)` body of the BFS loop: mark newly
discovered neighbors, enqueue them, set their parent, and append them to the
traversal with index and rank annotations. -/
def bfsDiscover (v : String) : BfsState → List String → BfsState
  | st, [] => st
  | st, u :: us =>
    if st.discovered.contains u then bfsDiscover v st us
    else
      let result' := st.result ++ [u]
      bfsDiscover v
        { st with
          discovered := st.discovered ++ [u]
          queue := st.queue ++ [u]
          parent := fun k => if k = u then some v else st.parent k
          result := result'
          log := fun k => if k = u then some (((result'.length - 1 : ℤ)) : JsNum) else st.log k
          nodeAnnotations :=
            fun k => if k = u then some (toString result'.length) else st.nodeAnnotations k }
        us

/-- One iteration of the BFS `while` loop body: record the step for the
dequeued node `v`, then process its neighbors.  The recorded step's `visited`
field is the JavaScript *reference* to the shared `result` array, not a copy;
it is stored here as a placeholder `[]` and patched in `runBFS` to its
observable content at return time, the final traversal.  The `display`
string, by contrast, is built from the array's content at recording time, so
it keeps the point-in-time snapshot. -/
def bfsIter (g : GraphData) (v : String) (rest : List String) (st : BfsState) : BfsState :=
  let stepDisplay :=
    "Current: " ++ v ++ " | Queue: " ++ String.intercalate (" → ") rest
      ++ " | Visited: " ++ String.intercalate (", ") st.result
  bfsDiscover v
    { st with
      queue := rest
      steps := st.steps ++ [⟨v, [], rest, stepDisplay, st.nodeAnnotations⟩]
      fullDisplay := st.fullDisplay ++ [stepDisplay] }
    (bfsNeighbors g v)

/-- The `while (queue.length > 0)` loop of `runBFS`: dequeue and run one
iteration while fuel remains. -/
def bfsLoop (g : GraphData) : ℕ → BfsState → BfsState
  | 0, st => st
  | fuel + 1, st =>
    match st.queue with
    | [] => st
    | v :: rest => bfsLoop g fuel (bfsIter g v rest st)

/-- Fuel that dominates the bfs loop measure `|universe \ discovered| +
|queue|` from the initial state. -/
def bfsFuel (g : GraphData) : ℕ :=
  g.universeIds.length + 1

/-- `runBFS` of bfs.ts.  The start-node guard `!startId || !graph.nodes.some(...)`
is truthy when `startId` is `undefined`, the empty string (falsy), or an
unknown id.  The returned steps carry the final traversal in their `visited`
field because each recorded step aliases the single `result` array. -/
def runBFS (g : GraphData) (startId : Option String) : Except String TraversalResult :=
  if g.isWeighted then Except.error ("BFS does not run on a weighted graph")
  else
    match startId with
    | none => Except.error ("Invalid or missing start node")
    | some s =>
      if s = "" then Except.error ("Invalid or missing start node")
      else if !g.hasNode s then Except.error ("Invalid or missing start node")
      else
        let st0 : BfsState :=
          { discovered := [s]
            parent := fun _ => none
            result := [s]
            log := fun k => if k = s then some ((0 : ℤ) : JsNum) else none
            steps := []
            fullDisplay := []
            nodeAnnotations := fun k => if k = s then some ("1") else none
            queue := [s] }
        let stF := bfsLoop g (bfsFuel g) st0
        Except.ok
          { traversal := stF.result
            log := stF.log
            steps := stF.steps.map (fun e => { e with visited := stF.result })
            display := some (String.intercalate ("\n") stF.fullDisplay)
            nodeAnnotations := stF.nodeAnnotations }

/-! ## Dijkstra (dijkstra.ts) -/

/-- Stable insertion of a priority-queue entry: the new element goes before
the first strictly greater entry, after all entries that are `≤` it that
precede that point.  Used to model `pq.sort((a, b) => a[1] - b[1])`. -/
def pqInsert (x : String × JsNum) : List (String × JsNum) → List (String × JsNum)
  | [] => [x]
  | y :: ys => if x.2 ≤ y.2 then x :: y :: ys else y :: pqInsert x ys

/-- `pq.sort((a, b) => a[1] - b[1])`: ECMAScript mandates a stable sort, and a
stable sort of a list under a total preorder is unique, so this insertion
sort computes exactly the array produced by the engine's `Array.prototype.sort`
(the comparator never sees `NaN`: all queued distances are finite). -/
def pqSort : List (String × JsNum) → List (String × JsNum)
  | [] => []
  | x :: xs => pqInsert x (pqSort xs)

/-- The neighbor computation of `runDijkstra`: edges touching `current`
(respecting directedness), mapped to the opposite endpoint paired with the
edge's weight, already-finalized targets filtered out.  The source reads
`e.weight!`; a missing weight (excluded by the weighted-graph invariant) is
modelled as `0`. -/
def dijNeighbors (g : GraphData) (visited : List String) (current : String) :
    List (String × ℤ) :=
  ((g.edges.filter (fun e => e.node1 = current || (!g.isDirected && e.node2 = current))).map
    (fun e => (if e.node1 = current then e.node2 else e.node1, e.weight.getD 0))).filter
    (fun n => !visited.contains n.1)

/-- The mutable locals of `runDijkstra`.  `distances` is total with default
`⊤`: the source object holds every declared node id (initialized to
`Infinity`), and under the graph invariant no other key is ever read. -/
structure DijkState where
  distances : String → JsNum
  previous : String → Option String
  steps : List TraversalLogEntry
  visited : List String
  traversal : List String
  pq : List (String × JsNum)

/-- The `for (const { id, weight } of neighbors)` relaxation loop: if the path
through `current` improves a neighbor's distance, update it, record the
predecessor, and push a fresh queue entry (lazy decrease-key). -/
def dijRelax (current : String) : DijkState → List (String × ℤ) → DijkState
  | st, [] => st
  | st, (id, w) :: ns =>
    let alt := st.distances current + (w : JsNum)
    if alt < st.distances id then
      dijRelax current
        { st with
          distances := fun k => if k = id then alt else st.distances k
          previous := fun k => if k = id then some current else st.previous k
          pq := st.pq ++ [(id, alt)] }
        ns
    else dijRelax current st ns

/-- The per-step annotation loop of `runDijkstra`: infinite distances are
labelled `"∞"`, finalized nodes are labelled with their distance, and a node
that is neither (finite distance, not yet finalized) receives no label. -/
def dijAnnotations (g : GraphData) (dist : String → JsNum) (visited : List String) :
    String → Option String :=
  fun k =>
    if g.hasNode k then
      match dist k with
      | ⊤ => some ("∞")
      | (z : ℤ) => if visited.contains k then some (toString z) else none
    else none

/-- One non-skipped iteration of the `runDijkstra` loop body: finalize the
shifted node, relax its outgoing edges, and record one step (queue contents
and annotations are captured after relaxation). -/
def dijIter (g : GraphData) (current : String) (rest : List (String × JsNum))
    (st : DijkState) : DijkState :=
  let visited' := st.visited ++ [current]
  let st1 :=
    dijRelax current
      { st with visited := visited', traversal := st.traversal ++ [current], pq := rest }
      (dijNeighbors g visited' current)
  let annot := dijAnnotations g st1.distances visited'
  let stepDisplay :=
    "Visiting " ++ current ++ " (dist: " ++ jsNumToString (st1.distances current)
      ++ "), PQ: [" ++ String.intercalate (", ") (st1.pq.map Prod.fst) ++ "]"
  { st1 with
    steps := st1.steps ++ [⟨current, visited', st1.pq.map Prod.fst, stepDisplay, annot⟩] }

/-- The `while (pq.length > 0)` loop of `runDijkstra`: sort the queue, shift
the head, skip it when already finalized, otherwise run one iteration.  After
a skip the next round re-sorts the already sorted remainder, which is the
identity, so the skip branch just drops the head. -/
def dijkstraLoop (g : GraphData) : ℕ → DijkState → DijkState
  | 0, st => st
  | fuel + 1, st =>
    match pqSort st.pq with
    | [] => st
    | (current, _) :: rest =>
      if st.visited.contains current then dijkstraLoop g fuel { st with pq := rest }
      else dijkstraLoop g fuel (dijIter g current rest st)

/-- Fuel dominating the dijkstra loop measure
`|universe \ visited| * (|edges| + 1) + |pq|` from the initial state. -/
def dijFuel (g : GraphData) : ℕ :=
  g.universeIds.length * (g.edges.length + 1) + 1

/-- `runDijkstra` of dijkstra.ts.  Validation order follows the source: start
node first (`!startId` is truthy for `undefined` and for the empty string),
then the weighted flag, then the eager negative-weight scan
(`e.weight! < 0` is false for a missing weight).  The result's `log` is the
`distances` record itself and the final annotations render every distance
with `toString`, so an unreachable node's final label is `"Infinity"`. -/
def runDijkstra (g : GraphData) (startId : Option String) : Except String TraversalResult :=
  match startId with
  | none => Except.error ("Invalid or missing start node")
  | some s =>
    if s = "" then Except.error ("Invalid or missing start node")
    else if !g.hasNode s then Except.error ("Invalid or missing start node")
    else if !g.isWeighted then Except.error ("Dijkstra\x27s algorithm requires a weighted graph")
    else if g.edges.any (fun e => e.weight.getD 0 < 0) then
      Except.error ("Dijkstra\x27s algorithm does not support negative weights")
    else
      let st0 : DijkState :=
        { distances := fun k => if k = s then ((0 : ℤ) : JsNum) else ⊤
          previous := fun _ => none
          steps := []
          visited := []
          traversal := []
          pq := [(s, ((0 : ℤ) : JsNum))] }
      let stF := dijkstraLoop g (dijFuel g) st0
      Except.ok
        { traversal := stF.traversal
          log := fun k => if g.hasNode k then some (stF.distances k) else none
          steps := stF.steps
          display := none
          nodeAnnotations :=
            fun k => if g.hasNode k then some (jsNumToString (stF.distances k)) else none }

/-! ## Topological sort (Kahn's algorithm, index.ts) -/

/-- The in-degree record built by the set-up loops of `runToposort`: nodes
start at 0 and each edge increments its target.  Equivalently, the number of
edges whose `node2` is `v` (under the graph invariant only node ids carry a
positive count). -/
def topoInDeg (g : GraphData) (v : String) : ℤ :=
  ((g.edges.filter (fun e => e.node2 = v)).length : ℤ)

/-- The adjacency record of `runToposort`: for each processed node, the
targets of its outgoing edges in edge-declaration order. -/
def topoAdj (g : GraphData) (v : String) : List String :=
  (g.edges.filter (fun e => e.node1 = v)).map GraphEdge.node2

/-- The `for (const neighbor of adjList[current])` body: decrement each
successor's in-degree and enqueue it at the moment the count reaches zero. -/
def topoProcess : List String → (String → ℤ) → List String → (String → ℤ) × List String
  | [], deg, queue => (deg, queue)
  | t :: ts, deg, queue =>
    let deg' := fun k => if k = t then deg t - 1 else deg k
    topoProcess ts deg' (if deg' t = 0 then queue ++ [t] else queue)

/-- The mutable locals of `runToposort`. -/
structure TopoState where
  inDeg : String → ℤ
  queue : List String
  traversal : List String
  log : String → Option JsNum
  nodeAnnotations : String → Option String
  steps : List TraversalLogEntry
  displayLines : List String

/-- One iteration of the `runToposort` loop body: append the dequeued node to
the order with a 0-based log index and 1-based rank annotation, decrement the
successors' in-degrees (enqueueing fresh zeros), and record one step with the
post-update queue and order. -/
def topoIter (g : GraphData) (current : String) (rest : List String) (st : TopoState) :
    TopoState :=
  let index := st.traversal.length
  let traversal' := st.traversal ++ [current]
  let log' := fun k => if k = current then some ((index : ℤ) : JsNum) else st.log k
  let annot' :=
    fun k => if k = current then some (toString (index + 1)) else st.nodeAnnotations k
  let dq := topoProcess (topoAdj g current) st.inDeg rest
  let stepDisplay :=
    "Selected: " ++ current ++ " | Queue: [" ++ String.intercalate (", ") dq.2
      ++ "] | Order: " ++ String.intercalate (" → ") traversal'
  { inDeg := dq.1
    queue := dq.2
    traversal := traversal'
    log := log'
    nodeAnnotations := annot'
    steps := st.steps ++ [⟨current, traversal', dq.2, stepDisplay, annot'⟩]
    displayLines := st.displayLines ++ [stepDisplay] }

/-- The `while (queue.length > 0)` loop of `runToposort`: dequeue and run one
iteration while fuel remains. -/
def topoLoop (g : GraphData) : ℕ → TopoState → TopoState
  | 0, st => st
  | fuel + 1, st =>
    match st.queue with
    | [] => st
    | current :: rest => topoLoop g fuel (topoIter g current rest st)

/-- The initial queue of `runToposort`: declared node ids with in-degree 0,
in declared order. -/
def topoSeed (g : GraphData) : List String :=
  g.nodeIds.filter (fun id => topoInDeg g id = 0)

/-- Fuel for the toposort loop: the loop measure
`Σ_{v ∈ nodeIds} max(inDeg v, 0) + |queue|` of the initial state, which every
iteration strictly decreases. -/
def topoFuel (g : GraphData) : ℕ :=
  (g.nodeIds.map (fun v => (topoInDeg g v).toNat)).sum + (topoSeed g).length

/-- `runToposort` of index.ts: requires a directed graph, runs Kahn's
algorithm, and reports a cycle when the main loop ordered fewer nodes than
the graph declares. -/
def runToposort (g : GraphData) : Except String TraversalResult :=
  if !g.isDirected then Except.error ("Topological sort requires a directed graph")
  else
    let st0 : TopoState :=
      { inDeg := topoInDeg g
        queue := topoSeed g
        traversal := []
        log := fun _ => none
        nodeAnnotations := fun _ => none
        steps := []
        displayLines := [] }
    let stF := topoLoop g (topoFuel g) st0
    if stF.traversal.length ≠ g.nodes.length then
      Except.error ("Graph contains a cycle — topological sort is not possible")
    else
      Except.ok
        { traversal := stF.traversal
          log := stF.log
          steps := stF.steps
          display := some (String.intercalate ("\n") stF.displayLines)
          nodeAnnotations := stF.nodeAnnotations }

/-! ## Specification-side graph notions

The claims speak about true shortest-path distances, reachability and
directed cycles; these are defined here independently of the algorithms. -/

/-- A single usable weighted edge from `u` to `v`: some declared edge carries
weight `w` and connects `u` to `v` in its declared direction, or in the
reverse direction when the graph is undirected.  This mirrors exactly the
edge orientations the engine's neighbor computations follow. -/
def EdgeW (g : GraphData) (u v : String) (w : ℤ) : Prop :=
  ∃ e ∈ g.edges, e.weight = some w ∧
    ((e.node1 = u ∧ e.node2 = v) ∨ (g.isDirected = false ∧ e.node2 = u ∧ e.node1 = v))

/-- `PathCost g u v c`: there is a walk from `u` to `v` whose weights sum to
`c`. -/
inductive PathCost (g : GraphData) : String → String → ℤ → Prop
  | refl (v : String) : PathCost g v v 0
  | cons {u v t : String} {w c : ℤ} :
      EdgeW g u v w → PathCost g v t c → PathCost g u t (w + c)

/-- `v` is reachable from `u` along usable edges. -/
def Reachable (g : GraphData) (u v : String) : Prop :=
  ∃ c, PathCost g u v c

/-- A directed edge of the graph as toposort reads it (weights ignored). -/
def EdgeTo (g : GraphData) (u v : String) : Prop :=
  ∃ e ∈ g.edges, e.node1 = u ∧ e.node2 = v

/-- The graph has a directed cycle: a nonempty chain of directed edges from
some vertex back to itself. -/
def DirCycle (g : GraphData) : Prop :=
  ∃ v, Relation.TransGen (EdgeTo g) v v

/-! ## General list helpers -/

lemma contains_true_iff (l : List String) (x : String) : l.contains x = true ↔ x ∈ l := by
  simp

lemma contains_false_iff (l : List String) (x : String) : l.contains x = false ↔ x ∉ l := by
  simp

lemma filter_length_lt {α : Type} {p q : α → Bool} (h : ∀ x, p x = true → q x = true)
    (a : α) (hq : q a = true) (hp : p a = false) :
    ∀ l : List α, a ∈ l → (l.filter p).length < (l.filter q).length := by
  intro l
  induction l with
  | nil => intro hmem; cases hmem
  | cons b bs ih =>
    intro hmem
    rcases List.mem_cons.mp hmem with hba | hmem
    · subst hba
      simp only [List.filter_cons, hp, hq, if_pos, List.length_cons]
      exact Nat.lt_succ_of_le ((List.monotone_filter_right bs h).length_le)
    · have hlt := ih hmem
      by_cases hpb : p b = true
      · simp only [List.filter_cons, hpb, h b hpb, List.length_cons]
        exact Nat.succ_lt_succ hlt
      · have hpb' : p b = false := by
          cases hb : p b
          · rfl
          · exact absurd hb hpb
        by_cases hqb : q b = true
        · simp only [List.filter_cons, hpb', hqb, List.length_cons]
          exact Nat.lt_succ_of_lt hlt
        · have hqb' : q b = false := by
            cases hb : q b
            · rfl
            · exact absurd hb hqb
          simpa only [List.filter_cons, hpb', hqb'] using hlt

/-- Number of universe ids not yet visited; the head factor in the loop
measures. -/
def unvisitedCount (g : GraphData) (visited : List String) : ℕ :=
  (g.universeIds.filter (fun u => !visited.contains u)).length

lemma unvisitedCount_concat_lt (g : GraphData) (visited : List String) (node : String)
    (hU : node ∈ g.universeIds) (hn : node ∉ visited) :
    unvisitedCount g (visited ++ [node]) < unvisitedCount g visited := by
  apply filter_length_lt _ node _ _ _ hU
  · intro x hx
    simp only [Bool.not_eq_true', contains_false_iff] at hx ⊢
    intro hmem
    exact hx (List.mem_append_left _ hmem)
  · simp [hn]
  · simp

lemma unvisitedCount_le_univ (g : GraphData) (visited : List String) :
    unvisitedCount g visited ≤ g.universeIds.length :=
  List.length_filter_le _ _

/-! ## Canonical forms of the rank annotations / index log shared by
DFS, BFS and toposort -/

/-- The rank-annotation record after the ordered list `l` of nodes has been
visited: the `i`-th visited node is labelled `i + 1`. -/
def rankAnnot (l : List String) : String → Option String :=
  fun k => if k ∈ l then some (toString (List.indexOf k l + 1)) else none

/-- The index log after the ordered list `l` of nodes has been visited: the
`i`-th visited node maps to `i`. -/
def indexLog (l : List String) : String → Option JsNum :=
  fun k => if k ∈ l then some ((List.indexOf k l : ℤ) : JsNum) else none

lemma rankAnnot_concat (l : List String) (x : String) (hx : x ∉ l) :
    (fun k => if k = x then some (toString (l.length + 1)) else rankAnnot l k)
      = rankAnnot (l ++ [x]) := by
  funext k
  by_cases hk : k = x
  · subst hk
    have : List.indexOf k (l ++ [k]) = l.length := by
      rw [List.indexOf_append_of_not_mem hx]
      simp
    simp [rankAnnot, this]
  · have hmem : k ∈ l ++ [x] ↔ k ∈ l := by simp [hk]
    by_cases hkl : k ∈ l
    · simp [rankAnnot, hk, hkl, hmem, List.indexOf_append_of_mem hkl]
    · simp [rankAnnot, hk, hkl, hmem]

lemma indexLog_concat (l : List String) (x : String) (hx : x ∉ l) :
    (fun k => if k = x then some ((l.length : ℤ) : JsNum) else indexLog l k)
      = indexLog (l ++ [x]) := by
  funext k
  by_cases hk : k = x
  · subst hk
    have : List.indexOf k (l ++ [k]) = l.length := by
      rw [List.indexOf_append_of_not_mem hx]
      simp
    simp [indexLog, this]
  · have hmem : k ∈ l ++ [x] ↔ k ∈ l := by simp [hk]
    by_cases hkl : k ∈ l
    · simp [indexLog, hk, hkl, hmem, List.indexOf_append_of_mem hkl]
    · simp [indexLog, hk, hkl, hmem]

/-! ## DFS lemmas -/

/-- `st'` extends `st`: the visited set, traversal and step list only grow by
appending. -/
structure DfsExt (st st' : DfsState) : Prop where
  vis : ∃ t, st'.visited = st.visited ++ t
  res : ∃ t, st'.result = st.result ++ t
  stp : ∃ t, st'.steps = st.steps ++ t

lemma DfsExt.rfl (st : DfsState) : DfsExt st st :=
  ⟨⟨[], by simp⟩, ⟨[], by simp⟩, ⟨[], by simp⟩⟩

lemma DfsExt.trans {s1 s2 s3 : DfsState} (h1 : DfsExt s1 s2) (h2 : DfsExt s2 s3) :
    DfsExt s1 s3 := by
  obtain ⟨⟨t1, e1⟩, ⟨t2, e2⟩, ⟨t3, e3⟩⟩ := h1
  obtain ⟨⟨u1, f1⟩, ⟨u2, f2⟩, ⟨u3, f3⟩⟩ := h2
  exact ⟨⟨t1 ++ u1, by simp [f1, e1]⟩, ⟨t2 ++ u2, by simp [f2, e2]⟩,
    ⟨t3 ++ u3, by simp [f3, e3]⟩⟩

lemma DfsExt.mem_vis {s1 s2 : DfsState} (h : DfsExt s1 s2) {x : String}
    (hx : x ∈ s1.visited) : x ∈ s2.visited := by
  obtain ⟨t, ht⟩ := h.vis
  rw [ht]
  exact List.mem_append_left _ hx

lemma dfsLoop_ext (g : GraphData) :
    ∀ (fuel : ℕ) (st : DfsState) (stack : List String), DfsExt st (dfsLoop g fuel st stack) := by
  intro fuel
  induction fuel with
  | zero => intro st stack; exact DfsExt.rfl st
  | succ n ih =>
    intro st stack
    match stack with
    | [] => exact DfsExt.rfl st
    | node :: rest =>
      rw [dfsLoop]
      split
      · exact ih st rest
      · exact DfsExt.trans ⟨⟨_, rfl⟩, ⟨_, rfl⟩, ⟨_, rfl⟩⟩ (ih _ _)

/-- The state invariant of `runDFS`: the visited set and the traversal list
coincide, the log and annotations are the canonical index/rank records of the
traversal, and every recorded step is the frozen snapshot taken at its own
visit. -/
structure DfsInv (st : DfsState) : Prop where
  rv : st.result = st.visited
  nodup : st.result.Nodup
  logEq : st.log = indexLog st.result
  annotEq : st.nodeAnnotations = rankAnnot st.result
  stepsLen : st.steps.length = st.result.length
  stepsSpec : ∀ i e, st.steps[i]? = some e →
    st.result[i]? = some e.current ∧ e.visited = st.result.take (i + 1) ∧
    e.nodeAnnotations = rankAnnot (st.result.take (i + 1))

lemma dfsLoop_inv (g : GraphData) :
    ∀ (fuel : ℕ) (st : DfsState) (stack : List String),
      DfsInv st → DfsInv (dfsLoop g fuel st stack) := by
  intro fuel
  induction fuel with
  | zero => intro st stack h; exact h
  | succ n ih =>
    intro st stack h
    match stack with
    | [] => exact h
    | node :: rest =>
      rw [dfsLoop]
      split
      · exact ih st rest h
      · rename_i hnode
        apply ih
        have hnotmem : node ∉ st.result := by
          rw [h.rv]
          simpa using hnode
        refine ⟨?_, ?_, ?_, ?_, ?_, ?_⟩
      
        · dsimp only
          rw [h.rv]
        · dsimp only
          simpa [List.concat_eq_append] using (h.nodup.concat hnotmem)
        · show (fun k => if k = node then some ((st.result.length : ℤ) : JsNum) else st.log k)
            = indexLog (st.result ++ [node])
          rw [h.logEq]
          exact indexLog_concat _ _ hnotmem
        · show (fun k => if k = node then some (toString (st.result ++ [node]).length)
              else st.nodeAnnotations k) = rankAnnot (st.result ++ [node])
          rw [h.annotEq]
          simpa using rankAnnot_concat st.result node hnotmem
        · dsimp only
          simp [h.stepsLen]
        · intro i e he
          dsimp only at he ⊢
          rcases Nat.lt_trichotomy i st.steps.length with hi | hi | hi
          · rw [List.getElem?_append_left hi] at he
            obtain ⟨hc, hv, ha⟩ := h.stepsSpec i e he
            have hile : i + 1 ≤ st.result.length := by
              rw [← h.stepsLen]; exact hi
            refine ⟨?_, ?_, ?_⟩
            · rw [List.getElem?_append_left (by omega)]
              exact hc
            · rw [List.take_append_of_le_length hile]
              exact hv
            · rw [List.take_append_of_le_length hile]
              exact ha
          · subst hi
            rw [List.getElem?_append_right le_rfl] at he
            simp only [Nat.sub_self, List.getElem?_cons_zero, Option.some_inj] at he
            subst he
            rw [h.stepsLen]
            have hlen : (st.result ++ [node]).length = st.result.length + 1 := by simp
            refine ⟨?_, ?_, ?_⟩
            · exact List.getElem?_concat_length _ _
            · dsimp only
              rw [← hlen, List.take_length, h.rv]
            · dsimp only
              rw [← hlen, List.take_length, h.annotEq]
              simpa using rankAnnot_concat st.result node hnotmem
          · rw [List.getElem?_eq_none (by simp; omega)] at he
            cases he

lemma dfsNeighbors_subset_universe (g : GraphData) (visited : List String) (node : String) :
    ∀ y ∈ dfsNeighbors g visited node, y ∈ g.universeIds := by
  intro y hy
  simp only [dfsNeighbors, List.mem_filter, List.mem_map] at hy
  obtain ⟨⟨e, he, hey⟩, -⟩ := hy
  have hemem : e ∈ g.edges := he.1
  unfold GraphData.universeIds
  by_cases h1 : e.node1 = node
  · simp only [h1, if_pos] at hey
    subst hey
    exact List.mem_append_right _ (List.mem_map_of_mem _ hemem)
  · simp only [h1, if_neg, ite_false] at hey
    subst hey
    refine List.mem_append_left _ (List.mem_append_right _ (List.mem_map_of_mem _ hemem))

lemma dfsNeighbors_length_le (g : GraphData) (visited : List String) (node : String) :
    (dfsNeighbors g visited node).length ≤ g.edges.length := by
  unfold dfsNeighbors
  calc (((g.edges.filter _).map _).filter _).length
      ≤ ((g.edges.filter _).map _).length := List.length_filter_le _ _
    _ = (g.edges.filter _).length := List.length_map _ _
    _ ≤ g.edges.length := List.length_filter_le _ _

lemma dfsLoop_covers (g : GraphData) :
    ∀ (fuel : ℕ) (st : DfsState) (stack : List String),
      (∀ x ∈ stack, x ∈ g.universeIds) →
      unvisitedCount g st.visited * (g.edges.length + 1) + stack.length ≤ fuel →
      ∀ x ∈ stack, x ∈ (dfsLoop g fuel st stack).visited := by
  intro fuel
  induction fuel with
  | zero =>
    intro st stack _ hm x hx
    have h0 : stack.length = 0 := by omega
    rw [List.length_eq_zero] at h0
    subst h0
    cases hx
  | succ n ih =>
    intro st stack hU hm x hx
    cases stack with
    | nil => cases hx
    | cons node rest =>
      rw [dfsLoop]
      split
      · rename_i hnode
        rcases List.mem_cons.mp hx with hxn | hxr
        · subst hxn
          exact (dfsLoop_ext g n st rest).mem_vis ((contains_true_iff _ _).mp (by simpa using hnode))
        · refine ih st rest (fun y hy => hU y (List.mem_cons_of_mem _ hy)) (by simp at hm ⊢; omega) x hxr
      · rename_i hnode
        have hUnode : node ∈ g.universeIds := hU node (List.mem_cons_self _ _)
        have hnotvis : node ∉ st.visited := by simpa using hnode
        have hlt := unvisitedCount_concat_lt g st.visited node hUnode hnotvis
        have hnle := dfsNeighbors_length_le g (st.visited ++ [node]) node
        have hm' : unvisitedCount g (st.visited ++ [node]) * (g.edges.length + 1)
            + (dfsNeighbors g (st.visited ++ [node]) node ++ rest).length ≤ n := by
          have hF1 : 1 ≤ unvisitedCount g st.visited := by omega
          obtain ⟨m, hmeq⟩ : ∃ m, unvisitedCount g st.visited = m + 1 :=
            ⟨unvisitedCount g st.visited - 1, by omega⟩
          have hle : unvisitedCount g (st.visited ++ [node]) ≤ m := by omega
          have h1 : unvisitedCount g (st.visited ++ [node]) * (g.edges.length + 1)
              ≤ m * (g.edges.length + 1) := Nat.mul_le_mul_right _ hle
          rw [hmeq] at hm
          have h2 : (m + 1) * (g.edges.length + 1)
              = m * (g.edges.length + 1) + (g.edges.length + 1) := by ring
          rw [h2] at hm
          simp only [List.length_append, List.length_cons] at hm ⊢
          omega
        rcases List.mem_cons.mp hx with hxn | hxr
        · subst hxn
          refine (dfsLoop_ext g n _ _).mem_vis ?_
          exact List.mem_append_right _ (List.mem_singleton_self _)
        · refine ih _ _ ?_ hm' x (List.mem_append_right _ hxr)
          intro y hy
          rcases List.mem_append.mp hy with hyn | hyr
          · exact dfsNeighbors_subset_universe g _ node y hyn
          · exact hU y (List.mem_cons_of_mem _ hyr)

/-- The state after the optional preferred-start phase of `runDFS`. -/
def dfsStartState (g : GraphData) (sid : Option String) : DfsState :=
  let st0 : DfsState := ⟨[], [], fun _ => none, [], [], fun _ => none⟩
  match sid with
  | none => st0
  | some s => if s = "" then st0
      else if g.hasNode s then dfsLoop g (dfsFuel g) st0 [s] else st0

/-- The state after the full sweep of `runDFS`. -/
def dfsFinalState (g : GraphData) (sid : Option String) : DfsState :=
  dfsSweep g (dfsFuel g) g.nodes (dfsStartState g sid)

lemma runDFS_eq (g : GraphData) (sid : Option String) (hw : g.isWeighted = false) :
    runDFS g sid = Except.ok
      { traversal := (dfsFinalState g sid).result
        log := (dfsFinalState g sid).log
        steps := (dfsFinalState g sid).steps
        display := some (String.intercalate ("\n") (dfsFinalState g sid).fullDisplay)
        nodeAnnotations := (dfsFinalState g sid).nodeAnnotations } := by
  unfold runDFS dfsFinalState dfsStartState
  rw [hw]
  rfl

lemma dfsInv_init : DfsInv ⟨[], [], fun _ => none, [], [], fun _ => none⟩ := by
  refine ⟨rfl, List.nodup_nil, ?_, ?_, rfl, ?_⟩
  · funext k; simp [indexLog]
  · funext k; simp [rankAnnot]
  · intro i e he; simp at he

lemma dfsSweep_ext (g : GraphData) (fuel : ℕ) :
    ∀ (ns : List GraphNode) (st : DfsState), DfsExt st (dfsSweep g fuel ns st) := by
  intro ns
  induction ns with
  | nil => intro st; exact DfsExt.rfl st
  | cons nd ns ih =>
    intro st
    rw [dfsSweep]
    refine DfsExt.trans ?_ (ih _)
    split
    · exact DfsExt.rfl st
    · exact dfsLoop_ext g fuel st [nd.id]

lemma dfsSweep_inv (g : GraphData) (fuel : ℕ) :
    ∀ (ns : List GraphNode) (st : DfsState), DfsInv st → DfsInv (dfsSweep g fuel ns st) := by
  intro ns
  induction ns with
  | nil => intro st h; exact h
  | cons nd ns ih =>
    intro st h
    rw [dfsSweep]
    apply ih
    split
    · exact h
    · exact dfsLoop_inv g fuel st [nd.id] h

lemma dfsSweep_covers (g : GraphData) :
    ∀ (ns : List GraphNode) (st : DfsState),
      (∀ nd ∈ ns, nd.id ∈ g.universeIds) →
      ∀ nd ∈ ns, nd.id ∈ (dfsSweep g (dfsFuel g) ns st).visited := by
  intro ns
  induction ns with
  | nil => intro st _ nd h; cases h
  | cons n0 ns ih =>
    intro st hU nd hnd
    rw [dfsSweep]
    rcases List.mem_cons.mp hnd with h0 | hmem
    · subst h0
      refine (dfsSweep_ext g (dfsFuel g) ns _).mem_vis ?_
      split
      · rename_i hc
        exact (contains_true_iff _ _).mp hc
      · refine dfsLoop_covers g (dfsFuel g) st [nd.id] ?_ ?_ nd.id (List.mem_singleton_self _)
        · intro y hy
          rw [List.mem_singleton] at hy
          subst hy
          exact hU nd (List.mem_cons_self _ _)
        · unfold dfsFuel
          have := unvisitedCount_le_univ g st.visited
          have := Nat.mul_le_mul_right (g.edges.length + 1) (unvisitedCount_le_univ g st.visited)
          simp only [List.length_singleton]
          omega
    · exact ih _ (fun x hx => hU x (List.mem_cons_of_mem _ hx)) nd hmem

lemma dfsFinalState_inv (g : GraphData) (sid : Option String) :
    DfsInv (dfsFinalState g sid) := by
  apply dfsSweep_inv
  unfold dfsStartState
  cases sid with
  | none => exact dfsInv_init
  | some s =>
    dsimp only
    split
    · exact dfsInv_init
    · split
      · exact dfsLoop_inv g (dfsFuel g) _ [s] dfsInv_init
      · exact dfsInv_init

lemma dfsFinalState_covers (g : GraphData) (sid : Option String) :
    ∀ nd ∈ g.nodes, nd.id ∈ (dfsFinalState g sid).result := by
  intro nd hnd
  rw [(dfsFinalState_inv g sid).rv]
  refine dfsSweep_covers g g.nodes _ ?_ nd hnd
  intro m hm
  unfold GraphData.universeIds
  exact List.mem_append_left _ (List.mem_append_left _ (List.mem_map_of_mem _ hm))

/-! ## BFS lemmas -/

lemma bfsNeighbors_subset_universe (g : GraphData) (v : String) :
    ∀ y ∈ bfsNeighbors g v, y ∈ g.universeIds := by
  intro y hy
  simp only [bfsNeighbors, List.mem_map] at hy
  obtain ⟨e, he, hey⟩ := hy
  have hemem : e ∈ g.edges := (List.mem_filter.mp he).1
  unfold GraphData.universeIds
  by_cases h1 : e.node1 = v
  · simp only [h1, if_pos] at hey
    subst hey
    exact List.mem_append_right _ (List.mem_map_of_mem _ hemem)
  · simp only [h1, if_neg, ite_false] at hey
    subst hey
    exact List.mem_append_left _ (List.mem_append_right _ (List.mem_map_of_mem _ hemem))

/-- The state invariant of the BFS loop: the discovery map and the traversal
agree, the traversal decomposes into the already dequeued nodes (the recorded
step currents, in order) followed by the pending queue, and log/annotations
are the canonical records of the traversal. -/
structure BfsInv (st : BfsState) : Prop where
  dr : st.discovered = st.result
  nodup : st.result.Nodup
  decomp : st.result = st.steps.map TraversalLogEntry.current ++ st.queue
  logEq : st.log = indexLog st.result
  annotEq : st.nodeAnnotations = rankAnnot st.result

lemma bfsDiscover_ext (v : String) :
    ∀ (us : List String) (st : BfsState), ∃ t,
      (bfsDiscover v st us).discovered = st.discovered ++ t ∧
      (bfsDiscover v st us).queue = st.queue ++ t ∧
      (bfsDiscover v st us).result = st.result ++ t ∧
      (bfsDiscover v st us).steps = st.steps ∧
      (t = [] → (bfsDiscover v st us).nodeAnnotations = st.nodeAnnotations) := by
  intro us
  induction us with
  | nil =>
    intro st
    rw [bfsDiscover]
    exact ⟨[], by simp, by simp, by simp, rfl, fun _ => rfl⟩
  | cons u us ih =>
    intro st
    rw [bfsDiscover]
    split
    · exact ih st
    · obtain ⟨t, h1, h2, h3, h4, h5⟩ := ih _
      refine ⟨u :: t, ?_, ?_, ?_, ?_, ?_⟩
      · rw [h1]; simp
      · rw [h2]; simp
      · rw [h3]; simp
      · rw [h4]
      · intro h; cases h

lemma bfsDiscover_inv (v : String) :
    ∀ (us : List String) (st : BfsState), BfsInv st → BfsInv (bfsDiscover v st us) := by
  intro us
  induction us with
  | nil => intro st h; exact h
  | cons u us ih =>
    intro st h
    rw [bfsDiscover]
    split
    · exact ih st h
    · rename_i hu
      apply ih
      have hnotmem : u ∉ st.result := by
        rw [← h.dr]
        simpa using hu
      refine ⟨?_, ?_, ?_, ?_, ?_⟩
      · dsimp only
        rw [h.dr]
      · dsimp only
        simpa [List.concat_eq_append] using (h.nodup.concat hnotmem)
      · dsimp only
        rw [h.decomp]
        simp
      · show (fun k => if k = u then some (((st.result ++ [u]).length - 1 : ℤ) : JsNum)
            else st.log k) = indexLog (st.result ++ [u])
        rw [h.logEq]
        have hv : ((st.result ++ [u]).length - 1 : ℤ) = (st.result.length : ℤ) := by
          simp
        rw [show (fun k => if k = u then some ((((st.result ++ [u]).length - 1 : ℤ)) : JsNum)
              else indexLog st.result k)
            = (fun k => if k = u then some ((st.result.length : ℤ) : JsNum)
              else indexLog st.result k) by funext k; rw [hv]]
        exact indexLog_concat _ _ hnotmem
      · show (fun k => if k = u then some (toString (st.result ++ [u]).length)
            else st.nodeAnnotations k) = rankAnnot (st.result ++ [u])
        rw [h.annotEq]
        simpa using rankAnnot_concat st.result u hnotmem

lemma bfsDiscover_measure (g : GraphData) (v : String) :
    ∀ (us : List String) (st : BfsState), (∀ u ∈ us, u ∈ g.universeIds) →
      unvisitedCount g (bfsDiscover v st us).discovered + (bfsDiscover v st us).queue.length
        ≤ unvisitedCount g st.discovered + st.queue.length := by
  intro us
  induction us with
  | nil => intro st _; exact le_rfl
  | cons u us ih =>
    intro st hU
    rw [bfsDiscover]
    split
    · exact ih st (fun y hy => hU y (List.mem_cons_of_mem _ hy))
    · rename_i hu
      refine le_trans (ih _ (fun y hy => hU y (List.mem_cons_of_mem _ hy))) ?_
      dsimp only
      have hlt := unvisitedCount_concat_lt g st.discovered u
        (hU u (List.mem_cons_self _ _)) (by simpa using hu)
      simp only [List.length_append, List.length_singleton]
      omega

lemma bfsIter_inv (g : GraphData) (v : String) (rest : List String) (st : BfsState)
    (hq : st.queue = v :: rest) (h : BfsInv st) : BfsInv (bfsIter g v rest st) := by
  unfold bfsIter
  apply bfsDiscover_inv
  refine ⟨h.dr, h.nodup, ?_, h.logEq, h.annotEq⟩
  dsimp only
  rw [h.decomp, hq]
  simp

lemma bfsIter_measure (g : GraphData) (v : String) (rest : List String) (st : BfsState) :
    unvisitedCount g (bfsIter g v rest st).discovered + (bfsIter g v rest st).queue.length
      ≤ unvisitedCount g st.discovered + rest.length := by
  unfold bfsIter
  refine le_trans (bfsDiscover_measure g v (bfsNeighbors g v) _
    (bfsNeighbors_subset_universe g v)) ?_
  simp

lemma bfsIter_steps (g : GraphData) (v : String) (rest : List String) (st : BfsState) :
    ∃ e, (bfsIter g v rest st).steps = st.steps ++ [e] ∧ e.current = v ∧
      e.nodeAnnotations = st.nodeAnnotations := by
  unfold bfsIter
  obtain ⟨t, -, -, -, hsteps, -⟩ := bfsDiscover_ext v (bfsNeighbors g v) _
  exact ⟨_, by rw [hsteps], rfl, rfl⟩

lemma bfsLoop_inv (g : GraphData) :
    ∀ (fuel : ℕ) (st : BfsState), BfsInv st → BfsInv (bfsLoop g fuel st) := by
  intro fuel
  induction fuel with
  | zero => intro st h; exact h
  | succ n ih =>
    intro st h
    rw [bfsLoop]
    match hq : st.queue with
    | [] => exact h
    | v :: rest => exact ih _ (bfsIter_inv g v rest st hq h)

lemma bfsLoop_complete (g : GraphData) :
    ∀ (fuel : ℕ) (st : BfsState),
      unvisitedCount g st.discovered + st.queue.length ≤ fuel →
      (bfsLoop g fuel st).queue = [] := by
  intro fuel
  induction fuel with
  | zero =>
    intro st hm
    have h0 : st.queue.length = 0 := by omega
    rw [bfsLoop]
    exact List.length_eq_zero.mp h0
  | succ n ih =>
    intro st hm
    rw [bfsLoop]
    match hq : st.queue with
    | [] => exact hq
    | v :: rest =>
      refine ih _ ?_
      have := bfsIter_measure g v rest st
      rw [hq] at hm
      simp only [List.length_cons] at hm
      omega

lemma bfsLoop_last (g : GraphData) :
    ∀ (fuel : ℕ) (st : BfsState),
      st.queue ≠ [] →
      unvisitedCount g st.discovered + st.queue.length ≤ fuel →
      ∃ e, (bfsLoop g fuel st).steps.getLast? = some e ∧
        e.nodeAnnotations = (bfsLoop g fuel st).nodeAnnotations := by
  intro fuel
  induction fuel with
  | zero =>
    intro st hq hm
    exact absurd (List.length_eq_zero.mp (by omega)) hq
  | succ n ih =>
    intro st hq hm
    rw [bfsLoop]
    match hqe : st.queue with
    | [] => exact absurd hqe hq
    | v :: rest =>
      show ∃ e, (bfsLoop g n (bfsIter g v rest st)).steps.getLast? = some e ∧
        e.nodeAnnotations = (bfsLoop g n (bfsIter g v rest st)).nodeAnnotations
      by_cases hq2 : (bfsIter g v rest st).queue = []
      · have hloop : bfsLoop g n (bfsIter g v rest st) = bfsIter g v rest st := by
          cases n with
          | zero => rw [bfsLoop]
          | succ m => rw [bfsLoop, hq2]
        rw [hloop]
        obtain ⟨e, hsteps, hcur, hannot⟩ := bfsIter_steps g v rest st
        refine ⟨e, by rw [hsteps]; exact List.getLast?_concat _, ?_⟩
        rw [hannot]
        unfold bfsIter
        obtain ⟨t, -, hqueue, -, -, hann⟩ := bfsDiscover_ext v (bfsNeighbors g v) _
        have ht : t = [] := by
          unfold bfsIter at hq2
          rw [hqueue] at hq2
          exact (by simpa using hq2 : rest = [] ∧ t = []).2
        rw [hann ht]
      · refine ih _ hq2 ?_
        have := bfsIter_measure g v rest st
        rw [hqe] at hm
        simp only [List.length_cons] at hm
        omega

/-- The initial BFS state for start node `s`. -/
def bfsInitState (g : GraphData) (s : String) : BfsState :=
  { discovered := [s]
    parent := fun _ => none
    result := [s]
    log := fun k => if k = s then some ((0 : ℤ) : JsNum) else none
    steps := []
    fullDisplay := []
    nodeAnnotations := fun k => if k = s then some ("1") else none
    queue := [s] }

/-- The BFS state when the loop exits. -/
def bfsFinalState (g : GraphData) (s : String) : BfsState :=
  bfsLoop g (bfsFuel g) (bfsInitState g s)

lemma runBFS_eq (g : GraphData) (s : String) (hw : g.isWeighted = false) (hs : s ≠ "")
    (hn : g.hasNode s = true) :
    runBFS g (some s) = Except.ok
      { traversal := (bfsFinalState g s).result
        log := (bfsFinalState g s).log
        steps := (bfsFinalState g s).steps.map
          (fun e => { e with visited := (bfsFinalState g s).result })
        display := some (String.intercalate ("\n") (bfsFinalState g s).fullDisplay)
        nodeAnnotations := (bfsFinalState g s).nodeAnnotations } := by
  unfold runBFS bfsFinalState bfsInitState
  rw [hw]
  simp only [Bool.false_eq_true, if_false, if_neg hs, hn, Bool.not_true, Bool.false_eq_true,
    if_false]

lemma bfsInit_inv (g : GraphData) (s : String) : BfsInv (bfsInitState g s) := by
  refine ⟨rfl, List.nodup_singleton s, by simp [bfsInitState], ?_, ?_⟩
  · funext k
    unfold bfsInitState indexLog
    by_cases hk : k = s
    · subst hk; simp
    · simp [hk]
  · funext k
    unfold bfsInitState rankAnnot
    by_cases hk : k = s
    · subst hk; simp; rfl
    · simp [hk]

lemma bfsFinalState_inv (g : GraphData) (s : String) : BfsInv (bfsFinalState g s) :=
  bfsLoop_inv g (bfsFuel g) _ (bfsInit_inv g s)

lemma bfsFinalState_queue (g : GraphData) (s : String) : (bfsFinalState g s).queue = [] := by
  apply bfsLoop_complete
  unfold bfsInitState bfsFuel
  have := unvisitedCount_le_univ g [s]
  simp only [List.length_singleton]
  omega

lemma bfsFinalState_decomp (g : GraphData) (s : String) :
    (bfsFinalState g s).result
      = (bfsFinalState g s).steps.map TraversalLogEntry.current := by
  have h := (bfsFinalState_inv g s).decomp
  rw [bfsFinalState_queue g s] at h
  simpa using h

lemma bfsFinalState_last (g : GraphData) (s : String) :
    ∃ e, (bfsFinalState g s).steps.getLast? = some e ∧
      e.nodeAnnotations = (bfsFinalState g s).nodeAnnotations := by
  apply bfsLoop_last
  · unfold bfsInitState
    simp
  · unfold bfsInitState bfsFuel
    have := unvisitedCount_le_univ g [s]
    simp only [List.length_singleton]
    omega

/-! ## Toposort lemmas -/

lemma topoProcess_deg :
    ∀ (ts : List String) (deg : String → ℤ) (queue : List String) (v : String),
      (topoProcess ts deg queue).1 v = deg v - (ts.count v : ℤ) := by
  intro ts
  induction ts with
  | nil => intro deg queue v; simp [topoProcess]
  | cons t ts ih =>
    intro deg queue v
    rw [topoProcess]
    rw [ih]
    by_cases hv : v = t
    · subst hv
      simp only [if_pos rfl, List.count_cons, beq_self_eq_true, if_pos]
      push_cast
      ring
    · have : (t == v) = false := by
        simp [Ne.symm hv]
      simp only [if_neg (Ne.symm (Ne.symm hv)), List.count_cons, this, if_false]
      simp [hv]

lemma topoProcess_queue_count :
    ∀ (ts : List String) (deg : String → ℤ) (queue : List String) (v : String),
      (topoProcess ts deg queue).2.count v = queue.count v
        + (if 1 ≤ deg v ∧ deg v ≤ (ts.count v : ℤ) then 1 else 0) := by
  intro ts
  induction ts with
  | nil =>
    intro deg queue v
    rw [topoProcess]
    have h0 : ¬ (1 ≤ deg v ∧ deg v ≤ ((List.count v ([] : List String) : ℕ) : ℤ)) := by
      simp only [List.count_nil, Nat.cast_zero]
      omega
    rw [if_neg h0]
    simp [topoProcess]
  | cons t ts ih =>
    intro deg queue v
    rw [topoProcess, ih]
    simp only [List.count_cons, if_pos rfl]
    by_cases hv : v = t
    · subst hv
      simp only [if_pos rfl, beq_self_eq_true, if_true]
      have hnn : (0 : ℤ) ≤ (ts.count v : ℤ) := Int.natCast_nonneg _
      by_cases h1 : deg v - 1 = 0
      · rw [if_pos h1, List.count_append]
        have hc1 : List.count v [v] = 1 := by simp
        rw [hc1]
        rw [if_neg (by omega : ¬ (1 ≤ deg v - 1 ∧ deg v - 1 ≤ (ts.count v : ℤ)))]
        rw [if_pos (by push_cast; omega : 1 ≤ deg v ∧ deg v ≤ ((ts.count v + 1 : ℕ) : ℤ))]
      · rw [if_neg h1]
        have hiff : (1 ≤ deg v - 1 ∧ deg v - 1 ≤ (ts.count v : ℤ))
            ↔ (1 ≤ deg v ∧ deg v ≤ ((ts.count v + 1 : ℕ) : ℤ)) := by
          push_cast
          omega
        rw [if_congr hiff rfl rfl]
    · have hbeq : (t == v) = false := by
        simp [Ne.symm hv]
      simp only [hbeq, if_false, if_neg hv, Nat.add_zero, if_true, Bool.false_eq_true]
      have henq : List.count v (if deg t - 1 = 0 then queue ++ [t] else queue)
          = List.count v queue := by
        split
        · rw [List.count_append]
          have hz : List.count v [t] = 0 := by
            simp [List.count_singleton, Ne.symm hv]
          omega
        · rfl
      rw [henq]

lemma hasNode_iff (g : GraphData) (v : String) : g.hasNode v = true ↔ v ∈ g.nodeIds := by
  unfold GraphData.hasNode GraphData.nodeIds
  simp only [List.any_eq_true, decide_eq_true_eq, List.mem_map]

/-- Number of edges into `v` whose source has not yet been ordered; the
quantity the toposort in-degree record tracks. -/
def pendCount (g : GraphData) (traversal : List String) (v : String) : ℕ :=
  (g.edges.filter (fun e => e.node2 = v && !traversal.contains e.node1)).length

lemma topoInDeg_eq_pendCount (g : GraphData) (v : String) :
    topoInDeg g v = (pendCount g [] v : ℤ) := by
  unfold topoInDeg pendCount
  congr 2
  apply List.filter_congr
  intro e _
  simp

lemma length_filter_split {α : Type} (l : List α) (P C : α → Bool) :
    (l.filter P).length = (l.filter (fun x => P x && C x)).length
      + (l.filter (fun x => P x && !C x)).length := by
  induction l with
  | nil => simp
  | cons a as ih =>
    rcases Bool.eq_false_or_eq_true (P a) with hP | hP <;>
      rcases Bool.eq_false_or_eq_true (C a) with hC | hC <;>
      simp [List.filter_cons, hP, hC, ih] <;> omega

/-- Multiplicity of `v` among the successors of `current` in the adjacency
record. -/
lemma topoAdj_count (g : GraphData) (current v : String) :
    (topoAdj g current).count v
      = (g.edges.filter (fun e => e.node1 = current && e.node2 = v)).length := by
  unfold topoAdj
  rw [List.count_eq_countP, List.countP_map, List.countP_filter,
    ← List.countP_eq_length_filter]
  apply List.countP_congr
  intro e _
  constructor
  · intro h
    simp only [Function.comp_apply, beq_iff_eq] at h
    obtain ⟨h2, h1⟩ := Bool.and_eq_true_iff.mp h
    simp only [Bool.and_eq_true, decide_eq_true_eq]
    exact ⟨by simpa using h1, by simpa using h2⟩
  · intro h
    simp only [Bool.and_eq_true, decide_eq_true_eq] at h
    simp only [Function.comp_apply, Bool.and_eq_true, beq_iff_eq, decide_eq_true_eq]
    exact ⟨by simpa using h.2, by simpa using h.1⟩

lemma pendCount_concat (g : GraphData) (traversal : List String) (current v : String)
    (hc : current ∉ traversal) :
    pendCount g traversal v
      = (g.edges.filter (fun e => e.node1 = current && e.node2 = v)).length
        + pendCount g (traversal ++ [current]) v := by
  unfold pendCount
  rw [length_filter_split g.edges
    (fun e => e.node2 = v && !traversal.contains e.node1) (fun e => e.node1 == current)]
  congr 1
  · congr 1
    apply List.filter_congr
    intro e _
    by_cases h1 : e.node1 = current
    · have : traversal.contains e.node1 = false := by
        rw [contains_false_iff]
        rw [h1]
        exact hc
      by_cases h2 : e.node2 = v
      · simp [h1, h2, this, hc]
      · simp [h1, h2]
    · simp [h1]
  · congr 1
    apply List.filter_congr
    intro e _
    by_cases h2 : e.node2 = v
    · by_cases h1 : e.node1 = current
      · simp [h1, h2]
      · by_cases hm : e.node1 ∈ traversal
        · have ha : traversal.contains e.node1 = true := (contains_true_iff _ _).mpr hm
          have hb : (traversal ++ [current]).contains e.node1 = true :=
            (contains_true_iff _ _).mpr (List.mem_append_left _ hm)
          simp [h1, h2, ha, hb]
        · have ha : traversal.contains e.node1 = false := (contains_false_iff _ _).mpr hm
          have hb : (traversal ++ [current]).contains e.node1 = false := by
            rw [contains_false_iff]
            simp [hm, h1]
          simp [h1, h2, ha, hb]
    · simp [h2]

/-- An edge from `current` to `v` (with `current` unordered) contributes to
`v`'s pending in-degree. -/
lemma pendCount_pos_of_edge (g : GraphData) (T : List String) {e : GraphEdge}
    (he : e ∈ g.edges) (hn : e.node1 ∉ T) : 0 < pendCount g T e.node2 := by
  unfold pendCount
  have : e ∈ g.edges.filter (fun x => x.node2 = e.node2 && !T.contains x.node1) := by
    rw [List.mem_filter]
    refine ⟨he, ?_⟩
    simp [contains_false_iff, hn]
  exact List.length_pos.mpr (List.ne_nil_of_mem this)

lemma edge_of_pendCount_pos (g : GraphData) (T : List String) (v : String)
    (h : 0 < pendCount g T v) : ∃ e ∈ g.edges, e.node2 = v ∧ e.node1 ∉ T := by
  unfold pendCount at h
  obtain ⟨e, he⟩ := List.exists_mem_of_length_pos h
  rw [List.mem_filter] at he
  obtain ⟨hmem, hcond⟩ := he
  simp only [Bool.and_eq_true, decide_eq_true_eq, Bool.not_eq_true', contains_false_iff] at hcond
  exact ⟨e, hmem, hcond.1, hcond.2⟩

lemma edge_of_filter_pos (g : GraphData) (current v : String)
    (h : 0 < (g.edges.filter (fun e => e.node1 = current && e.node2 = v)).length) :
    ∃ e ∈ g.edges, e.node1 = current ∧ e.node2 = v := by
  obtain ⟨e, he⟩ := List.exists_mem_of_length_pos h
  rw [List.mem_filter] at he
  obtain ⟨hmem, hcond⟩ := he
  simp only [Bool.and_eq_true, decide_eq_true_eq] at hcond
  exact ⟨e, hmem, hcond.1, hcond.2⟩

/-- The state invariant of `runToposort`: the queue holds exactly the
unordered zero-in-degree nodes, the in-degree record counts edges from
unordered sources, every edge into an ordered node comes from an earlier
ordered node, and log/annotations/steps are canonical. -/
structure TopoInv (g : GraphData) (st : TopoState) : Prop where
  nodupT : st.traversal.Nodup
  nodupQ : st.queue.Nodup
  subT : ∀ v ∈ st.traversal, v ∈ g.nodeIds
  deg : ∀ v, st.inDeg v = (pendCount g st.traversal v : ℤ)
  queueIff : ∀ v, v ∈ st.queue ↔ (v ∈ g.nodeIds ∧ v ∉ st.traversal ∧ st.inDeg v = 0)
  order : ∀ e ∈ g.edges, e.node2 ∈ st.traversal →
    e.node1 ∈ st.traversal ∧
      List.indexOf e.node1 st.traversal < List.indexOf e.node2 st.traversal
  logEq : st.log = indexLog st.traversal
  annotEq : st.nodeAnnotations = rankAnnot st.traversal
  stepsLen : st.steps.length = st.traversal.length
  stepsSpec : ∀ i e, st.steps[i]? = some e →
    st.traversal[i]? = some e.current ∧ e.visited = st.traversal.take (i + 1) ∧
    e.nodeAnnotations = rankAnnot (st.traversal.take (i + 1))

lemma topoIter_inv (g : GraphData) (hwf : g.Wf) (current : String) (rest : List String)
    (st : TopoState) (hq : st.queue = current :: rest) (h : TopoInv g st) :
    TopoInv g (topoIter g current rest st) := by
  obtain ⟨hcN, hcT, hcD⟩ := (h.queueIff current).mp (by rw [hq]; exact List.mem_cons_self _ _)
  have hcurrest : current ∉ rest := by
    have hx := h.nodupQ
    rw [hq] at hx
    exact (List.nodup_cons.mp hx).1
  have hrestnodup : rest.Nodup := by
    have hx := h.nodupQ
    rw [hq] at hx
    exact (List.nodup_cons.mp hx).2
  have hrestq : ∀ v ∈ rest, v ∈ st.queue := by
    intro v hv
    rw [hq]
    exact List.mem_cons_of_mem _ hv
  have hdeg1 : ∀ v, (topoProcess (topoAdj g current) st.inDeg rest).1 v
      = st.inDeg v - ((topoAdj g current).count v : ℤ) :=
    topoProcess_deg _ _ _
  have hsplit : ∀ v, pendCount g st.traversal v
      = (g.edges.filter (fun e => e.node1 = current && e.node2 = v)).length
        + pendCount g (st.traversal ++ [current]) v :=
    fun v => pendCount_concat g st.traversal current v hcT
  have hdegpend : ∀ v, (topoProcess (topoAdj g current) st.inDeg rest).1 v
      = (pendCount g (st.traversal ++ [current]) v : ℤ) := by
    intro v
    rw [hdeg1, h.deg, topoAdj_count, hsplit v]
    push_cast
    ring
  have hcntle : ∀ v, ((topoAdj g current).count v : ℤ) ≤ st.inDeg v := by
    intro v
    rw [h.deg, topoAdj_count, hsplit v]
    push_cast
    omega
  have hQmem : ∀ v, v ∈ (topoProcess (topoAdj g current) st.inDeg rest).2
      ↔ (v ∈ rest ∨ (1 ≤ st.inDeg v ∧ st.inDeg v ≤ ((topoAdj g current).count v : ℤ))) := by
    intro v
    constructor
    · intro hv
      have hpos := List.count_pos_iff.mpr hv
      rw [topoProcess_queue_count] at hpos
      by_cases hχ : 1 ≤ st.inDeg v ∧ st.inDeg v ≤ ((topoAdj g current).count v : ℤ)
      · exact Or.inr hχ
      · rw [if_neg hχ] at hpos
        exact Or.inl (List.count_pos_iff.mp (by omega))
    · intro hv
      apply List.count_pos_iff.mp
      rw [topoProcess_queue_count]
      rcases hv with hv | hv
      · have h1 := List.count_pos_iff.mpr hv
        by_cases hχ : 1 ≤ st.inDeg v ∧ st.inDeg v ≤ ((topoAdj g current).count v : ℤ)
        · rw [if_pos hχ]; omega
        · rw [if_neg hχ]; omega
      · rw [if_pos hv]; omega
  refine ⟨?_, ?_, ?_, ?_, ?_, ?_, ?_, ?_, ?_, ?_⟩
  · dsimp only [topoIter]
    simpa [List.concat_eq_append] using h.nodupT.concat hcT
  · dsimp only [topoIter]
    rw [List.nodup_iff_count_le_one]
    intro v
    rw [topoProcess_queue_count]
    by_cases hχ : 1 ≤ st.inDeg v ∧ st.inDeg v ≤ ((topoAdj g current).count v : ℤ)
    · rw [if_pos hχ]
      have hvrest : v ∉ rest := by
        intro hv
        have := ((h.queueIff v).mp (hrestq v hv)).2.2
        omega
      rw [List.count_eq_zero.mpr hvrest]
    · rw [if_neg hχ]
      have := (List.nodup_iff_count_le_one.mp hrestnodup) v
      omega
  · dsimp only [topoIter]
    intro v hv
    rcases List.mem_append.mp hv with hvT | hvc
    · exact h.subT v hvT
    · rw [List.mem_singleton] at hvc
      subst hvc
      exact hcN
  · intro v
    dsimp only [topoIter]
    exact hdegpend v
  · intro v
    dsimp only [topoIter]
    rw [hQmem v]
    constructor
    · intro hv
      rcases hv with hv | ⟨h1, h2⟩
      · obtain ⟨hvN, hvT, hvD⟩ := (h.queueIff v).mp (hrestq v hv)
        have hvnc : v ≠ current := fun hx => hcurrest (hx ▸ hv)
        refine ⟨hvN, ?_, ?_⟩
        · simp [hvT, hvnc]
        · rw [hdeg1]
          have := hcntle v
          have hnn : (0 : ℤ) ≤ ((topoAdj g current).count v : ℤ) := Int.natCast_nonneg _
          omega
      · have hcntpos : 0 < ((topoAdj g current).count v : ℤ) := by omega
        have hfilterpos : 0 < (g.edges.filter
            (fun e => e.node1 = current && e.node2 = v)).length := by
          rw [← topoAdj_count]
          exact_mod_cast hcntpos
        obtain ⟨e, he, he1, he2⟩ := edge_of_filter_pos g current v hfilterpos
        have hvN : v ∈ g.nodeIds := by
          have hx := (hwf.1 e he).2
          rw [hasNode_iff] at hx
          rw [← he2]
          exact hx
        have hvnc : v ≠ current := by
          intro hvc
          have hpos := pendCount_pos_of_edge g st.traversal he (he1 ▸ hcT)
          rw [he2, hvc] at hpos
          have hd := h.deg current
          rw [hcD] at hd
          omega
        have hvT : v ∉ st.traversal := by
          intro hvT
          have := (h.order e he (he2 ▸ hvT)).1
          rw [he1] at this
          exact hcT this
        refine ⟨hvN, by simp [hvT, hvnc], ?_⟩
        rw [hdeg1]
        have := hcntle v
        omega
    · rintro ⟨hvN, hvT', hvD1⟩
      have hvnc : v ≠ current := by
        intro hx
        exact hvT' (by rw [hx]; exact List.mem_append_right _ (List.mem_singleton_self _))
      have hvT : v ∉ st.traversal := fun hx => hvT' (List.mem_append_left _ hx)
      rw [hdeg1] at hvD1
      by_cases hz : st.inDeg v = 0
      · have hvq := (h.queueIff v).mpr ⟨hvN, hvT, hz⟩
        rw [hq] at hvq
        rcases List.mem_cons.mp hvq with hx | hx
        · exact absurd hx hvnc
        · exact Or.inl hx
      · have hge : 1 ≤ st.inDeg v := by
          have hd := h.deg v
          have hnn : (0 : ℤ) ≤ (pendCount g st.traversal v : ℤ) := Int.natCast_nonneg _
          omega
        exact Or.inr ⟨hge, by omega⟩
  · intro e he hmem
    dsimp only [topoIter] at hmem ⊢
    rcases List.mem_append.mp hmem with h2T | h2c
    · obtain ⟨h1T, hidx⟩ := h.order e he h2T
      refine ⟨List.mem_append_left _ h1T, ?_⟩
      rw [List.indexOf_append_of_mem h1T, List.indexOf_append_of_mem h2T]
      exact hidx
    · rw [List.mem_singleton] at h2c
      have h1T : e.node1 ∈ st.traversal := by
        by_contra h1T
        have hpos := pendCount_pos_of_edge g st.traversal he h1T
        rw [h2c] at hpos
        have hd := h.deg current
        rw [hcD] at hd
        omega
      refine ⟨List.mem_append_left _ h1T, ?_⟩
      rw [List.indexOf_append_of_mem h1T, h2c, List.indexOf_append_of_not_mem hcT]
      have : List.indexOf current [current] = 0 := by simp
      rw [this, Nat.add_zero]
      exact List.indexOf_lt_length.mpr h1T
  · dsimp only [topoIter]
    rw [h.logEq]
    exact indexLog_concat _ _ hcT
  · dsimp only [topoIter]
    rw [h.annotEq]
    exact rankAnnot_concat _ _ hcT
  · dsimp only [topoIter]
    simp [h.stepsLen]
  · intro i e he
    dsimp only [topoIter] at he ⊢
    rcases Nat.lt_trichotomy i st.steps.length with hi | hi | hi
    · rw [List.getElem?_append_left hi] at he
      obtain ⟨hc, hv, ha⟩ := h.stepsSpec i e he
      have hile : i + 1 ≤ st.traversal.length := by
        rw [← h.stepsLen]
        exact hi
      refine ⟨?_, ?_, ?_⟩
      · rw [List.getElem?_append_left (by omega)]
        exact hc
      · rw [List.take_append_of_le_length hile]
        exact hv
      · rw [List.take_append_of_le_length hile]
        exact ha
    · subst hi
      rw [List.getElem?_append_right le_rfl] at he
      simp only [Nat.sub_self, List.getElem?_cons_zero, Option.some_inj] at he
      subst he
      rw [h.stepsLen]
      have hlen : (st.traversal ++ [current]).length = st.traversal.length + 1 := by simp
      refine ⟨List.getElem?_concat_length _ _, ?_, ?_⟩
      · dsimp only
        rw [← hlen, List.take_length]
      · dsimp only
        rw [← hlen, List.take_length, h.annotEq]
        simpa using rankAnnot_concat _ _ hcT
    · rw [List.getElem?_eq_none (by simp; omega)] at he
      cases he

lemma topoLoop_inv (g : GraphData) (hwf : g.Wf) :
    ∀ (fuel : ℕ) (st : TopoState), TopoInv g st → TopoInv g (topoLoop g fuel st) := by
  intro fuel
  induction fuel with
  | zero => intro st h; exact h
  | succ n ih =>
    intro st h
    rw [topoLoop]
    match hq : st.queue with
    | [] => exact h
    | current :: rest => exact ih _ (topoIter_inv g hwf current rest st hq h)

lemma sum_map_update (l : List String) (t : String) (F G : String → ℕ)
    (ht : t ∈ l) (hn : l.Nodup) (hsame : ∀ v, v ≠ t → G v = F v) :
    (l.map G).sum + F t = (l.map F).sum + G t := by
  induction l with
  | nil => cases ht
  | cons a as ih =>
    rcases List.mem_cons.mp ht with hat | hmem
    · have hnot : a ∉ as := (List.nodup_cons.mp hn).1
      have hmapeq : as.map G = as.map F := by
        apply List.map_congr_left
        intro v hv
        apply hsame
        intro hx
        rw [hx, hat] at hv
        exact hnot hv
      simp only [List.map_cons, List.sum_cons, hmapeq]
      rw [← hat]
      omega
    · have ha : a ≠ t := by
        intro hx
        exact (List.nodup_cons.mp hn).1 (hx ▸ hmem)
      have hGa : G a = F a := hsame a ha
      have := ih hmem (List.nodup_cons.mp hn).2
      simp only [List.map_cons, List.sum_cons, hGa]
      omega

lemma topoProcess_measure (g : GraphData) (hnodup : g.nodeIds.Nodup) :
    ∀ (ts : List String) (deg : String → ℤ) (queue : List String),
      (∀ t ∈ ts, t ∈ g.nodeIds) →
      (g.nodeIds.map (fun v => ((topoProcess ts deg queue).1 v).toNat)).sum
          + (topoProcess ts deg queue).2.length
        ≤ (g.nodeIds.map (fun v => (deg v).toNat)).sum + queue.length := by
  intro ts
  induction ts with
  | nil => intro deg queue _; rw [topoProcess]
  | cons t ts ih =>
    intro deg queue hts
    rw [topoProcess]
    have htN : t ∈ g.nodeIds := hts t (List.mem_cons_self _ _)
    have hupd : (g.nodeIds.map
          (fun v => ((if v = t then deg t - 1 else deg v : ℤ)).toNat)).sum + (deg t).toNat
        = (g.nodeIds.map (fun v => (deg v).toNat)).sum + (deg t - 1).toNat := by
      have h0 := sum_map_update g.nodeIds t (fun v => (deg v).toNat)
        (fun v => ((if v = t then deg t - 1 else deg v : ℤ)).toNat) htN hnodup
        (by intro v hv; simp [hv])
      simpa using h0
    refine le_trans (ih _ _ (fun x hx => hts x (List.mem_cons_of_mem _ hx))) ?_
    have hcongr : (g.nodeIds.map (fun v =>
        ((fun k => if k = t then deg t - 1 else deg k) v).toNat)).sum
        = (g.nodeIds.map (fun v => ((if v = t then deg t - 1 else deg v : ℤ)).toNat)).sum := rfl
    by_cases hz : deg t - 1 = 0
    · have happ : (if (fun k => if k = t then deg t - 1 else deg k) t = 0
          then queue ++ [t] else queue) = queue ++ [t] := by simp [hz]
      rw [happ, List.length_append, List.length_singleton, hcongr]
      omega
    · have happ : (if (fun k => if k = t then deg t - 1 else deg k) t = 0
          then queue ++ [t] else queue) = queue := by simp [hz]
      rw [happ, hcongr]
      omega

/-- The loop measure of toposort. -/
def topoMeasure (g : GraphData) (st : TopoState) : ℕ :=
  (g.nodeIds.map (fun v => (st.inDeg v).toNat)).sum + st.queue.length

lemma topoAdj_subset_nodeIds (g : GraphData) (hwf : g.Wf) (current : String) :
    ∀ t ∈ topoAdj g current, t ∈ g.nodeIds := by
  intro t ht
  unfold topoAdj at ht
  rw [List.mem_map] at ht
  obtain ⟨e, he, het⟩ := ht
  rw [List.mem_filter] at he
  have := (hwf.1 e he.1).2
  rw [hasNode_iff] at this
  rw [← het]
  exact this

lemma topoIter_measure (g : GraphData) (hwf : g.Wf) (current : String) (rest : List String)
    (st : TopoState) :
    topoMeasure g (topoIter g current rest st)
      ≤ (g.nodeIds.map (fun v => (st.inDeg v).toNat)).sum + rest.length := by
  unfold topoMeasure topoIter
  exact topoProcess_measure g hwf.2 (topoAdj g current) st.inDeg rest
    (topoAdj_subset_nodeIds g hwf current)

lemma topoLoop_complete (g : GraphData) (hwf : g.Wf) :
    ∀ (fuel : ℕ) (st : TopoState),
      topoMeasure g st ≤ fuel → (topoLoop g fuel st).queue = [] := by
  intro fuel
  induction fuel with
  | zero =>
    intro st hm
    rw [topoLoop]
    unfold topoMeasure at hm
    exact List.length_eq_zero.mp (by omega)
  | succ n ih =>
    intro st hm
    rw [topoLoop]
    match hq : st.queue with
    | [] => exact hq
    | current :: rest =>
      refine ih _ ?_
      have := topoIter_measure g hwf current rest st
      unfold topoMeasure at hm
      rw [hq] at hm
      simp only [List.length_cons] at hm
      omega

/-- The initial state of `runToposort`. -/
def topoInitState (g : GraphData) : TopoState :=
  { inDeg := topoInDeg g
    queue := topoSeed g
    traversal := []
    log := fun _ => none
    nodeAnnotations := fun _ => none
    steps := []
    displayLines := [] }

/-- The toposort state when the loop exits. -/
def topoFinalState (g : GraphData) : TopoState :=
  topoLoop g (topoFuel g) (topoInitState g)

lemma topoInit_inv (g : GraphData) (hwf : g.Wf) : TopoInv g (topoInitState g) := by
  refine ⟨List.nodup_nil, ?_, ?_, ?_, ?_, ?_, ?_, ?_, rfl, ?_⟩
  · exact hwf.2.filter _
  · intro v hv
    cases hv
  · intro v
    unfold topoInitState
    exact topoInDeg_eq_pendCount g v
  · intro v
    simp [topoInitState, topoSeed]
  · intro e he hmem
    cases hmem
  · funext k
    simp [topoInitState, indexLog]
  · funext k
    simp [topoInitState, rankAnnot]
  · intro i e he
    simp only [topoInitState] at he
    simp at he

lemma topoFinalState_inv (g : GraphData) (hwf : g.Wf) : TopoInv g (topoFinalState g) :=
  topoLoop_inv g hwf _ _ (topoInit_inv g hwf)

lemma topoFinalState_queue (g : GraphData) (hwf : g.Wf) : (topoFinalState g).queue = [] := by
  apply topoLoop_complete g hwf
  unfold topoMeasure topoInitState topoFuel
  exact le_rfl

lemma runToposort_eq (g : GraphData) (hd : g.isDirected = true) :
    runToposort g = (if (topoFinalState g).traversal.length ≠ g.nodes.length then
      Except.error ("Graph contains a cycle — topological sort is not possible")
    else
      Except.ok
        { traversal := (topoFinalState g).traversal
          log := (topoFinalState g).log
          steps := (topoFinalState g).steps
          display := some (String.intercalate ("\n") (topoFinalState g).displayLines)
          nodeAnnotations := (topoFinalState g).nodeAnnotations }) := by
  unfold runToposort topoFinalState topoInitState
  rw [hd]
  rfl

/-- A finite nonempty set of vertices in which every vertex has a predecessor
inside the set contains a directed cycle. -/
lemma cycle_of_predecessors (g : GraphData) (R : List String) (hne : R ≠ [])
    (h : ∀ v ∈ R, ∃ u ∈ R, EdgeTo g u v) : DirCycle g := by
  classical
  let next : {v // v ∈ R} → {v // v ∈ R} :=
    fun p => ⟨(h p.1 p.2).choose, (h p.1 p.2).choose_spec.1⟩
  let f : ℕ → {v // v ∈ R} := fun n => next^[n] ⟨R.head hne, List.head_mem hne⟩
  have hedge : ∀ n, EdgeTo g (f (n + 1)).1 (f n).1 := by
    intro n
    have hiter : f (n + 1) = next (f n) := Function.iterate_succ_apply' next n _
    rw [hiter]
    exact (h (f n).1 (f n).2).choose_spec.2
  have hchain : ∀ n k, Relation.TransGen (EdgeTo g) (f (n + k + 1)).1 (f n).1 := by
    intro n k
    induction k with
    | zero => exact Relation.TransGen.single (hedge n)
    | succ m ihm =>
      have harith : n + (m + 1) + 1 = (n + m + 1) + 1 := by ring
      rw [harith]
      exact Relation.TransGen.head (hedge (n + m + 1)) ihm
  have hcard : R.toFinset.card < (Finset.univ : Finset (Fin (R.length + 1))).card := by
    have := List.toFinset_card_le R
    rw [Finset.card_univ, Fintype.card_fin]
    omega
  obtain ⟨i, -, j, -, hij, heq⟩ :=
    Finset.exists_ne_map_eq_of_card_lt_of_maps_to hcard
      (fun (i : Fin (R.length + 1)) _ => List.mem_toFinset.mpr (f i.1).2)
  have hgen : ∀ (a b : Fin (R.length + 1)), a.1 < b.1 → (f a.1).1 = (f b.1).1 → DirCycle g := by
    intro a b hlt he
    refine ⟨(f a.1).1, ?_⟩
    have hk : b.1 = a.1 + (b.1 - a.1 - 1) + 1 := by omega
    have hc := hchain a.1 (b.1 - a.1 - 1)
    rw [← hk] at hc
    rw [← he] at hc
    nth_rewrite 2 [he] at hc
    rw [← he] at hc
    exact hc
  rcases Nat.lt_or_ge i.1 j.1 with hlt | hge
  · exact hgen i j hlt heq
  · have hlt : j.1 < i.1 := by
      rcases Nat.lt_or_ge j.1 i.1 with h1 | h2
      · exact h1
      · exact absurd (Fin.ext (by omega)) hij
    exact hgen j i hlt heq.symm

lemma list_subset_length_le (l m : List String) (hnd : l.Nodup) (hmd : m.Nodup)
    (hsub : ∀ v ∈ l, v ∈ m) : l.length ≤ m.length := by
  have h1 : l.toFinset ⊆ m.toFinset :=
    fun x hx => List.mem_toFinset.mpr (hsub x (List.mem_toFinset.mp hx))
  have h2 : l.toFinset.card = l.length := List.toFinset_card_of_nodup hnd
  have h3 : m.toFinset.card = m.length := List.toFinset_card_of_nodup hmd
  have := Finset.card_le_card h1
  omega

lemma list_subset_total (l m : List String) (hnd : l.Nodup) (hmd : m.Nodup)
    (hsub : ∀ v ∈ l, v ∈ m) (hlen : m.length ≤ l.length) : ∀ v ∈ m, v ∈ l := by
  intro v hv
  have h1 : l.toFinset ⊆ m.toFinset :=
    fun x hx => List.mem_toFinset.mpr (hsub x (List.mem_toFinset.mp hx))
  have h2 : l.toFinset.card = l.length := List.toFinset_card_of_nodup hnd
  have h3 : m.toFinset.card = m.length := List.toFinset_card_of_nodup hmd
  have heq : l.toFinset = m.toFinset := Finset.eq_of_subset_of_card_le h1 (by omega)
  exact List.mem_toFinset.mp (heq ▸ List.mem_toFinset.mpr hv)

/-- If the toposort loop halts with some declared node unordered, the graph
has a directed cycle. -/
lemma cycle_of_stuck (g : GraphData) (hwf : g.Wf) (st : TopoState) (hinv : TopoInv g st)
    (hq : st.queue = []) (hv : ∃ v ∈ g.nodeIds, v ∉ st.traversal) : DirCycle g := by
  have hne : g.nodeIds.filter (fun v => !st.traversal.contains v) ≠ [] := by
    obtain ⟨v, hvN, hvT⟩ := hv
    exact List.ne_nil_of_mem (List.mem_filter.mpr ⟨hvN, by
      simp only [Bool.not_eq_true']
      exact (contains_false_iff _ _).mpr hvT⟩)
  apply cycle_of_predecessors g (g.nodeIds.filter (fun v => !st.traversal.contains v)) hne
  intro v hvR
  rw [List.mem_filter] at hvR
  obtain ⟨hvN, hvT'⟩ := hvR
  have hvT : v ∉ st.traversal := by
    rw [Bool.not_eq_true'] at hvT'
    exact (contains_false_iff _ _).mp hvT'
  have hdz : st.inDeg v ≠ 0 := by
    intro h0
    have hmem := (hinv.queueIff v).mpr ⟨hvN, hvT, h0⟩
    rw [hq] at hmem
    cases hmem
  have hpos : 0 < pendCount g st.traversal v := by
    have hd := hinv.deg v
    omega
  obtain ⟨e, he, he2, he1⟩ := edge_of_pendCount_pos g st.traversal v hpos
  refine ⟨e.node1, List.mem_filter.mpr ⟨(hasNode_iff g _).mp (hwf.1 e he).1, ?_⟩,
    ⟨e, he, rfl, he2⟩⟩
  rw [Bool.not_eq_true']
  exact (contains_false_iff _ _).mpr he1

/-- An ordering satisfying the toposort order invariant over all declared
nodes rules out directed cycles. -/
lemma no_cycle_of_topo_order (g : GraphData) (hwf : g.Wf) (T : List String)
    (horder : ∀ e ∈ g.edges, e.node2 ∈ T →
      e.node1 ∈ T ∧ List.indexOf e.node1 T < List.indexOf e.node2 T)
    (htotal : ∀ v ∈ g.nodeIds, v ∈ T) : ¬ DirCycle g := by
  rintro ⟨v, hv⟩
  have hstep : ∀ a b, EdgeTo g a b → List.indexOf a T < List.indexOf b T := by
    rintro a b ⟨e, he, h1, h2⟩
    have hbT : b ∈ T := by
      apply htotal
      rw [← h2]
      exact (hasNode_iff g _).mp (hwf.1 e he).2
    have hx := horder e he (by rw [h2]; exact hbT)
    rw [h1, h2] at hx
    exact hx.2
  have hmono : ∀ a b, Relation.TransGen (EdgeTo g) a b →
      List.indexOf a T < List.indexOf b T := by
    intro a b hab
    induction hab with
    | single h => exact hstep _ _ h
    | tail _ h ih => exact lt_trans ih (hstep _ _ h)
  exact lt_irrefl _ (hmono v v hv)

/-! ## Dijkstra lemmas: the stable sort -/

lemma pqInsert_mem (x : String × JsNum) :
    ∀ (l : List (String × JsNum)) (q : String × JsNum),
      q ∈ pqInsert x l ↔ q = x ∨ q ∈ l := by
  intro l
  induction l with
  | nil => intro q; simp [pqInsert]
  | cons y ys ih =>
    intro q
    rw [pqInsert]
    split
    · simp [List.mem_cons]
    · rw [List.mem_cons, ih]
      rw [List.mem_cons]
      tauto

lemma pqInsert_length (x : String × JsNum) :
    ∀ (l : List (String × JsNum)), (pqInsert x l).length = l.length + 1 := by
  intro l
  induction l with
  | nil => rfl
  | cons y ys ih =>
    rw [pqInsert]
    split
    · simp
    · simp [ih]

lemma pqInsert_pairwise (x : String × JsNum) :
    ∀ (l : List (String × JsNum)), l.Pairwise (fun a b => a.2 ≤ b.2) →
      (pqInsert x l).Pairwise (fun a b => a.2 ≤ b.2) := by
  intro l
  induction l with
  | nil => intro _; simp [pqInsert]
  | cons y ys ih =>
    intro hp
    rw [pqInsert]
    obtain ⟨hy, hys⟩ := List.pairwise_cons.mp hp
    split
    · rename_i hle
      rw [List.pairwise_cons]
      refine ⟨?_, hp⟩
      intro b hb
      rcases List.mem_cons.mp hb with hb | hb
      · exact hb ▸ hle
      · exact le_trans hle (hy b hb)
    · rename_i hgt
      rw [List.pairwise_cons]
      refine ⟨?_, ih hys⟩
      intro b hb
      rcases (pqInsert_mem x ys b).mp hb with hb | hb
      · exact hb ▸ (le_of_not_le hgt)
      · exact hy b hb

lemma pqSort_mem : ∀ (l : List (String × JsNum)) (q : String × JsNum),
    q ∈ pqSort l ↔ q ∈ l := by
  intro l
  induction l with
  | nil => intro q; rw [pqSort]
  | cons x xs ih =>
    intro q
    rw [pqSort, pqInsert_mem, ih, List.mem_cons]

lemma pqSort_length : ∀ (l : List (String × JsNum)), (pqSort l).length = l.length := by
  intro l
  induction l with
  | nil => rfl
  | cons x xs ih =>
    rw [pqSort, pqInsert_length, ih, List.length_cons]

lemma pqSort_pairwise : ∀ (l : List (String × JsNum)),
    (pqSort l).Pairwise (fun a b => a.2 ≤ b.2) := by
  intro l
  induction l with
  | nil => rw [pqSort]; exact List.Pairwise.nil
  | cons x xs ih => rw [pqSort]; exact pqInsert_pairwise x _ ih

/-- The head of the sorted queue carries a minimal distance value. -/
lemma pqSort_head_min (l : List (String × JsNum)) (p : String × JsNum)
    (rest : List (String × JsNum)) (h : pqSort l = p :: rest) :
    ∀ q ∈ l, p.2 ≤ q.2 := by
  intro q hq
  have hmem : q ∈ pqSort l := (pqSort_mem l q).mpr hq
  rw [h] at hmem
  rcases List.mem_cons.mp hmem with hqp | hqrest
  · rw [hqp]
  · have hp := pqSort_pairwise l
    rw [h, List.pairwise_cons] at hp
    exact hp.1 q hqrest

/-! ## Dijkstra lemmas: paths -/

lemma PathCost.snoc {g : GraphData} {s u v : String} {c w : ℤ}
    (hp : PathCost g s u c) (he : EdgeW g u v w) : PathCost g s v (c + w) := by
  induction hp with
  | refl x =>
    rw [zero_add, ← add_zero w]
    exact PathCost.cons he (PathCost.refl v)
  | cons hxy hyt ih =>
    rw [add_assoc]
    exact PathCost.cons hxy (ih he)

lemma EdgeW.w_nonneg {g : GraphData} (hnn : g.NonnegWeights) {u v : String} {w : ℤ}
    (h : EdgeW g u v w) : 0 ≤ w := by
  obtain ⟨e, he, hw, -⟩ := h
  exact hnn e he w hw

lemma PathCost.c_nonneg {g : GraphData} (hnn : g.NonnegWeights) {u v : String} {c : ℤ}
    (h : PathCost g u v c) : 0 ≤ c := by
  induction h with
  | refl x => exact le_rfl
  | cons hxy _ ih =>
    have := hxy.w_nonneg hnn
    omega

/-! ## Dijkstra lemmas: neighbors -/

lemma dijNeighbors_spec (g : GraphData) (hW : g.Weighted) (visited : List String)
    (current : String) :
    ∀ p ∈ dijNeighbors g visited current, EdgeW g current p.1 p.2 ∧ p.1 ∉ visited := by
  rintro ⟨id, w⟩ hp
  unfold dijNeighbors at hp
  rw [List.mem_filter] at hp
  obtain ⟨hp, hvis⟩ := hp
  rw [List.mem_map] at hp
  obtain ⟨e, he, hpe⟩ := hp
  rw [List.mem_filter] at he
  obtain ⟨he, hcond⟩ := he
  obtain ⟨w0, hw0⟩ := Option.isSome_iff_exists.mp (hW e he)
  simp only [Bool.not_eq_true', contains_false_iff] at hvis
  refine ⟨?_, hvis⟩
  simp only [Bool.or_eq_true, Bool.and_eq_true, Bool.not_eq_true', decide_eq_true_eq] at hcond
  by_cases h1 : e.node1 = current
  · simp only [h1, if_pos, Prod.mk.injEq] at hpe
    refine ⟨e, he, ?_, Or.inl ⟨h1, hpe.1⟩⟩
    rw [hw0]
    rw [← hpe.2, hw0]
    simp
  · simp only [h1, if_neg, ite_false, Prod.mk.injEq] at hpe
    rcases hcond with hc | ⟨hdir, hc⟩
    · exact absurd hc h1
    · refine ⟨e, he, ?_, Or.inr ⟨by simpa using hdir, hc, hpe.1⟩⟩
      rw [← hpe.2, hw0]
      simp

lemma edgeW_mem_dijNeighbors (g : GraphData) (visited : List String)
    (current v : String) (w : ℤ) (he : EdgeW g current v w) (hv : v ∉ visited) :
    (v, w) ∈ dijNeighbors g visited current := by
  obtain ⟨e, hmem, hw, hor⟩ := he
  unfold dijNeighbors
  rw [List.mem_filter]
  constructor
  · rw [List.mem_map]
    refine ⟨e, ?_, ?_⟩
    · rw [List.mem_filter]
      refine ⟨hmem, ?_⟩
      rcases hor with ⟨h1, h2⟩ | ⟨hdir, h2, h1⟩
      · simp [h1]
      · simp [h2, hdir]
    · rcases hor with ⟨h1, h2⟩ | ⟨hdir, h2, h1⟩
      · simp [h1, h2, hw]
      · by_cases hx : e.node1 = current
        · have : v = current := by rw [← h1, hx]
          simp [hx, h2, hw, this, Prod.ext_iff]
        · simp [hx, h1, hw]
          intro hvc
          rw [h2, hvc]
  · simp only [Bool.not_eq_true', contains_false_iff]
    exact hv

lemma dijNeighbors_subset_nodeIds (g : GraphData) (hwf : g.Wf) (visited : List String)
    (current : String) :
    ∀ p ∈ dijNeighbors g visited current, p.1 ∈ g.nodeIds := by
  rintro ⟨id, w⟩ hp
  unfold dijNeighbors at hp
  rw [List.mem_filter] at hp
  obtain ⟨hp, -⟩ := hp
  rw [List.mem_map] at hp
  obtain ⟨e, he, hpe⟩ := hp
  rw [List.mem_filter] at he
  have h1 := (hwf.1 e he.1).1
  have h2 := (hwf.1 e he.1).2
  rw [hasNode_iff] at h1 h2
  by_cases hx : e.node1 = current
  · simp only [hx, if_pos, Prod.mk.injEq] at hpe
    rw [← hpe.1]
    exact h2
  · simp only [hx, if_neg, ite_false, Prod.mk.injEq] at hpe
    rw [← hpe.1]
    exact h1

lemma dijNeighbors_length_le (g : GraphData) (visited : List String) (current : String) :
    (dijNeighbors g visited current).length ≤ g.edges.length := by
  unfold dijNeighbors
  calc (((g.edges.filter _).map _).filter _).length
      ≤ ((g.edges.filter _).map _).length := List.length_filter_le _ _
    _ = (g.edges.filter _).length := List.length_map _ _
    _ ≤ g.edges.length := List.length_filter_le _ _

lemma dijNeighbors_not_current (g : GraphData) (visited : List String) (current : String)
    (hc : current ∈ visited) :
    current ∉ (dijNeighbors g visited current).map Prod.fst := by
  intro hmem
  rw [List.mem_map] at hmem
  obtain ⟨p, hp, hpc⟩ := hmem
  unfold dijNeighbors at hp
  rw [List.mem_filter] at hp
  have := hp.2
  simp only [Bool.not_eq_true', contains_false_iff] at this
  rw [hpc] at this
  exact this hc

/-! ## Dijkstra lemmas: relaxation -/

lemma dijRelax_frozen (c : String) :
    ∀ (ns : List (String × ℤ)) (st : DijkState),
      (dijRelax c st ns).steps = st.steps ∧ (dijRelax c st ns).visited = st.visited ∧
      (dijRelax c st ns).traversal = st.traversal := by
  intro ns
  induction ns with
  | nil => intro st; exact ⟨rfl, rfl, rfl⟩
  | cons p ps ih =>
    intro st
    obtain ⟨id, w⟩ := p
    rw [dijRelax]
    split
    · exact ih _
    · exact ih st

lemma dijRelax_mono (c : String) :
    ∀ (ns : List (String × ℤ)) (st : DijkState) (k : String),
      (dijRelax c st ns).distances k ≤ st.distances k := by
  intro ns
  induction ns with
  | nil => intro st k; exact le_rfl
  | cons p ps ih =>
    intro st k
    obtain ⟨id, w⟩ := p
    rw [dijRelax]
    split
    · rename_i hlt
      refine le_trans (ih _ k) ?_
      dsimp only
      by_cases hk : k = id
      · rw [if_pos hk, hk]
        exact le_of_lt hlt
      · rw [if_neg hk]
    · exact ih st k

lemma dijRelax_stable (c : String) :
    ∀ (ns : List (String × ℤ)) (st : DijkState) (k : String),
      k ∉ ns.map Prod.fst → (dijRelax c st ns).distances k = st.distances k := by
  intro ns
  induction ns with
  | nil => intro st k _; rfl
  | cons p ps ih =>
    intro st k hk
    obtain ⟨id, w⟩ := p
    simp only [List.map_cons, List.mem_cons, not_or] at hk
    rw [dijRelax]
    split
    · rw [ih _ k hk.2]
      dsimp only
      rw [if_neg hk.1]
    · exact ih st k hk.2

lemma dijRelax_pq_mono (c : String) :
    ∀ (ns : List (String × ℤ)) (st : DijkState) (q : String × JsNum),
      q ∈ st.pq → q ∈ (dijRelax c st ns).pq := by
  intro ns
  induction ns with
  | nil => intro st q hq; exact hq
  | cons p ps ih =>
    intro st q hq
    obtain ⟨id, w⟩ := p
    rw [dijRelax]
    split
    · exact ih _ q (List.mem_append_left _ hq)
    · exact ih st q hq

lemma dijRelax_pq_new (c : String) :
    ∀ (ns : List (String × ℤ)) (st : DijkState),
      c ∉ ns.map Prod.fst →
      ∀ q ∈ (dijRelax c st ns).pq,
        q ∈ st.pq ∨ ∃ w, (q.1, w) ∈ ns ∧ q.2 = st.distances c + (w : JsNum) := by
  intro ns
  induction ns with
  | nil => intro st _ q hq; exact Or.inl hq
  | cons p ps ih =>
    intro st hc q hq
    obtain ⟨id, w⟩ := p
    simp only [List.map_cons, List.mem_cons, not_or] at hc
    rw [dijRelax] at hq
    split at hq
    · rcases ih _ hc.2 q hq with hold | ⟨w', hw', he⟩
      · dsimp only at hold
        rcases List.mem_append.mp hold with h1 | h2
        · exact Or.inl h1
        · rw [List.mem_singleton] at h2
          subst h2
          exact Or.inr ⟨w, List.mem_cons_self _ _, rfl⟩
      · refine Or.inr ⟨w', List.mem_cons_of_mem _ hw', ?_⟩
        rw [he]
        dsimp only
        rw [if_neg hc.1]
    · rcases ih st hc.2 q hq with hold | ⟨w', hw', he⟩
      · exact Or.inl hold
      · exact Or.inr ⟨w', List.mem_cons_of_mem _ hw', he⟩

lemma dijRelax_bound (c : String) :
    ∀ (ns : List (String × ℤ)) (st : DijkState),
      c ∉ ns.map Prod.fst →
      ∀ p ∈ ns, (dijRelax c st ns).distances p.1 ≤ st.distances c + (p.2 : JsNum) := by
  intro ns
  induction ns with
  | nil => intro st _ p hp; cases hp
  | cons hd ps ih =>
    intro st hc p hp
    obtain ⟨id, w⟩ := hd
    simp only [List.map_cons, List.mem_cons, not_or] at hc
    rcases List.mem_cons.mp hp with hph | hpt
    · subst hph
      rw [dijRelax]
      split
      · rename_i hlt
        refine le_trans (dijRelax_mono c ps _ id) ?_
        dsimp only
        rw [if_pos rfl]
      · rename_i hnlt
        refine le_trans (dijRelax_mono c ps st id) ?_
        exact le_of_not_lt hnlt
    · rw [dijRelax]
      split
      · refine le_trans (ih _ hc.2 p hpt) ?_
        dsimp only
        rw [if_neg hc.1]
      · exact ih st hc.2 p hpt

lemma dijRelax_changed_aux (c : String) :
    ∀ (ns : List (String × ℤ)) (st st0 : DijkState),
      (∀ k, st.distances k ≠ st0.distances k → (k, st.distances k) ∈ st.pq) →
      ∀ k, (dijRelax c st ns).distances k ≠ st0.distances k →
        (k, (dijRelax c st ns).distances k) ∈ (dijRelax c st ns).pq := by
  intro ns
  induction ns with
  | nil => intro st st0 hbase k hk; exact hbase k hk
  | cons p ps ih =>
    intro st st0 hbase k hk
    obtain ⟨id, w⟩ := p
    rw [dijRelax] at hk ⊢
    split at hk
    · rename_i hlt
      rw [if_pos hlt]
      refine ih _ st0 ?_ k hk
      intro k' hk'
      dsimp only at hk' ⊢
      by_cases hkid : k' = id
      · rw [if_pos hkid]
        rw [hkid]
        exact List.mem_append_right _ (List.mem_singleton_self _)
      · rw [if_neg hkid] at hk' ⊢
        exact List.mem_append_left _ (hbase k' hk')
    · rename_i hnlt
      rw [if_neg hnlt]
      exact ih st st0 hbase k hk

lemma dijRelax_changed (c : String) (ns : List (String × ℤ)) (st : DijkState) (k : String)
    (hk : (dijRelax c st ns).distances k ≠ st.distances k) :
    (k, (dijRelax c st ns).distances k) ∈ (dijRelax c st ns).pq := by
  refine dijRelax_changed_aux c ns st st ?_ k hk
  intro k' hk'
  exact absurd rfl hk' 

lemma dijRelax_pq_len (c : String) :
    ∀ (ns : List (String × ℤ)) (st : DijkState),
      (dijRelax c st ns).pq.length ≤ st.pq.length + ns.length := by
  intro ns
  induction ns with
  | nil =>
    intro st
    rw [dijRelax]
    simp
  | cons p ps ih =>
    intro st
    obtain ⟨id, w⟩ := p
    rw [dijRelax]
    split
    · refine le_trans (ih _) ?_
      simp only [List.length_append, List.length_singleton, List.length_cons,
        List.length_nil]
      omega
    · refine le_trans (ih st) ?_
      simp only [List.length_cons]
      omega

lemma dijRelax_real (g : GraphData) (s c : String) :
    ∀ (ns : List (String × ℤ)) (st : DijkState),
      (∀ k, st.distances k ≠ ⊤ → ∃ q : ℤ, st.distances k = (q : JsNum) ∧ PathCost g s k q) →
      (∃ qc : ℤ, st.distances c = (qc : JsNum) ∧ PathCost g s c qc) →
      (∀ p ∈ ns, EdgeW g c p.1 p.2) →
      c ∉ ns.map Prod.fst →
      ∀ k, (dijRelax c st ns).distances k ≠ ⊤ →
        ∃ q : ℤ, (dijRelax c st ns).distances k = (q : JsNum) ∧ PathCost g s k q := by
  intro ns
  induction ns with
  | nil => intro st hreal _ _ _ k hk; exact hreal k hk
  | cons p ps ih =>
    intro st hreal hc hE hcn k hk
    obtain ⟨id, w⟩ := p
    obtain ⟨qc, hqc, hpc⟩ := hc
    simp only [List.map_cons, List.mem_cons, not_or] at hcn
    rw [dijRelax] at hk ⊢
    split at hk
    · rename_i hlt
      rw [if_pos hlt]
      refine ih _ ?_ ?_ (fun x hx => hE x (List.mem_cons_of_mem _ hx)) hcn.2 k hk
      · intro k' hk'
        dsimp only at hk' ⊢
        by_cases hkid : k' = id
        · rw [if_pos hkid] at hk' ⊢
          refine ⟨qc + w, ?_, ?_⟩
          · rw [hqc]
            push_cast
            rfl
          · rw [hkid]
            exact hpc.snoc (hE (id, w) (List.mem_cons_self _ _))
        · rw [if_neg hkid] at hk' ⊢
          exact hreal k' hk'
      · refine ⟨qc, ?_, hpc⟩
        dsimp only
        rw [if_neg hcn.1]
        exact hqc
    · rename_i hnlt
      rw [if_neg hnlt]
      exact ih st hreal ⟨qc, hqc, hpc⟩ (fun x hx => hE x (List.mem_cons_of_mem _ hx)) hcn.2 k hk

/-! ## Dijkstra lemmas: the main invariant -/

/-- The correctness invariant of Dijkstra's loop: queue entries are finite
overestimates of their node's current distance, every finite distance is
realized by a path, finalized nodes carry their exact shortest distance,
every unfinalized finite-distance node has a live queue entry at exactly its
current distance, current distances are at most one relaxation away from any
finalized neighbor, and the start keeps distance at most 0 until finalized. -/
structure DInv (g : GraphData) (s : String) (st : DijkState) : Prop where
  finiteEntry : ∀ p ∈ st.pq, ∃ q : ℤ, p.2 = (q : JsNum)
  entryGE : ∀ p ∈ st.pq, st.distances p.1 ≤ p.2
  distReal : ∀ v, st.distances v ≠ ⊤ →
    ∃ q : ℤ, st.distances v = (q : JsNum) ∧ PathCost g s v q
  visitedMin : ∀ v ∈ st.visited, ∀ c : ℤ, PathCost g s v c → st.distances v ≤ (c : JsNum)
  visitedFinite : ∀ v ∈ st.visited, st.distances v ≠ ⊤
  unvisitedEntry : ∀ v, v ∉ st.visited → st.distances v ≠ ⊤ → (v, st.distances v) ∈ st.pq
  fringe : ∀ v, v ∉ st.visited → ∀ u ∈ st.visited, ∀ w : ℤ, EdgeW g u v w →
    st.distances v ≤ st.distances u + (w : JsNum)
  startLow : s ∉ st.visited → st.distances s ≤ ((0 : ℤ) : JsNum)

/-- The cut argument: any path from the start into the unfinalized region
costs at least the minimum queue value. -/
lemma dijkstra_cut (g : GraphData) (s : String) (hnn : g.NonnegWeights)
    (st : DijkState) (hinv : DInv g s st) (d : JsNum)
    (hmin : ∀ q ∈ st.pq, d ≤ q.2) :
    ∀ {v t : String} {c : ℤ}, PathCost g v t c → t ∉ st.visited →
      (v = s ∨ v ∈ st.visited) → d ≤ st.distances v + (c : JsNum) := by
  intro v t c hpath
  induction hpath with
  | refl x =>
    intro hx hv
    rcases hv with hvs | hvv
    · subst hvs
      have hle : st.distances x ≤ ((0 : ℤ) : JsNum) := hinv.startLow hx
      have hfin : st.distances x ≠ ⊤ := by
        intro htop
        rw [htop] at hle
        exact absurd hle (by simp)
      have hd := hmin _ (hinv.unvisitedEntry x hx hfin)
      calc d ≤ st.distances x := hd
        _ ≤ st.distances x + ((0 : ℤ) : JsNum) := by simp
    · exact absurd hvv hx
  | @cons u y t' w c' hEdge hPath ih =>
    intro ht hu
    have hw0 : 0 ≤ w := hEdge.w_nonneg hnn
    have hc0 : 0 ≤ c' := hPath.c_nonneg hnn
    by_cases huvis : u ∈ st.visited
    · obtain ⟨qu, hqu, hpu⟩ := hinv.distReal u (hinv.visitedFinite u huvis)
      by_cases hyvis : y ∈ st.visited
      · have hih := ih ht (Or.inr hyvis)
        have hy_le : st.distances y ≤ st.distances u + (w : JsNum) := by
          have hvm := hinv.visitedMin y hyvis (qu + w) (hpu.snoc hEdge)
          rw [hqu]
          calc st.distances y ≤ ((qu + w : ℤ) : JsNum) := hvm
            _ = (qu : JsNum) + (w : JsNum) := by push_cast; rfl
        calc d ≤ st.distances y + (c' : JsNum) := hih
          _ ≤ (st.distances u + (w : JsNum)) + (c' : JsNum) := add_le_add_right hy_le _
          _ = st.distances u + ((w + c' : ℤ) : JsNum) := by
              rw [add_assoc]
              congr 1
      · have hfr := hinv.fringe y hyvis u huvis w hEdge
        have hyfin : st.distances y ≠ ⊤ := by
          intro htop
          rw [htop, hqu] at hfr
          have hcast : ((qu : JsNum) + (w : JsNum)) = ((qu + w : ℤ) : JsNum) := by
            push_cast
            rfl
          rw [hcast] at hfr
          exact absurd (top_le_iff.mp hfr) (by simp)
        have hd := hmin _ (hinv.unvisitedEntry y hyvis hyfin)
        calc d ≤ st.distances y := hd
          _ ≤ st.distances u + (w : JsNum) := hfr
          _ ≤ st.distances u + ((w + c' : ℤ) : JsNum) := by
              apply add_le_add_left
              exact_mod_cast (by omega : w ≤ w + c')
    · have hus : u = s := hu.resolve_right huvis
      subst hus
      have hle : st.distances u ≤ ((0 : ℤ) : JsNum) := hinv.startLow huvis
      have hfin : st.distances u ≠ ⊤ := by
        intro htop
        rw [htop] at hle
        exact absurd hle (by simp)
      have hd := hmin _ (hinv.unvisitedEntry u huvis hfin)
      calc d ≤ st.distances u := hd
        _ ≤ st.distances u + ((w + c' : ℤ) : JsNum) := by
            apply le_add_of_nonneg_right
            exact_mod_cast (by omega : (0 : ℤ) ≤ w + c')

lemma dijIter_inv (g : GraphData) (s : String) (hW : g.Weighted) (hnn : g.NonnegWeights)
    (st : DijkState) (hinv : DInv g s st) (current : String) (d : JsNum)
    (rest : List (String × JsNum)) (hsort : pqSort st.pq = (current, d) :: rest)
    (hcv : current ∉ st.visited) :
    DInv g s (dijIter g current rest st) := by
  have hmemq : (current, d) ∈ st.pq :=
    (pqSort_mem _ _).mp (by rw [hsort]; exact List.mem_cons_self _ _)
  obtain ⟨qd, hqd0⟩ := hinv.finiteEntry _ hmemq
  have hqd : d = (qd : JsNum) := hqd0
  have hdistle : st.distances current ≤ d := hinv.entryGE _ hmemq
  have hcfin : st.distances current ≠ ⊤ := by
    intro htop
    rw [htop, hqd] at hdistle
    exact absurd (top_le_iff.mp hdistle) (by simp)
  have hmin : ∀ q ∈ st.pq, d ≤ q.2 :=
    fun q hq => pqSort_head_min st.pq (current, d) rest hsort q hq
  have hdeq : st.distances current = d :=
    le_antisymm hdistle (hmin _ (hinv.unvisitedEntry current hcv hcfin))
  have hmincur : ∀ c : ℤ, PathCost g s current c → st.distances current ≤ (c : JsNum) := by
    intro c hp
    have hcut := dijkstra_cut g s hnn st hinv d hmin hp hcv (Or.inl rfl)
    rw [hdeq]
    by_cases hs : s ∈ st.visited
    · obtain ⟨qs, hqs, hps⟩ := hinv.distReal s (hinv.visitedFinite s hs)
      have h0le : st.distances s ≤ ((0 : ℤ) : JsNum) :=
        hinv.visitedMin s hs 0 (PathCost.refl s)
      have hge0 : ((0 : ℤ) : JsNum) ≤ st.distances s := by
        rw [hqs]
        exact_mod_cast hps.c_nonneg hnn
      calc d ≤ st.distances s + (c : JsNum) := hcut
        _ = ((0 : ℤ) : JsNum) + (c : JsNum) := by rw [le_antisymm h0le hge0]
        _ = (c : JsNum) := by simp
    · calc d ≤ st.distances s + (c : JsNum) := hcut
        _ ≤ ((0 : ℤ) : JsNum) + (c : JsNum) := add_le_add_right (hinv.startLow hs) _
        _ = (c : JsNum) := by simp
  set visited' := st.visited ++ [current] with hvis
  set stB : DijkState :=
    { st with visited := visited', traversal := st.traversal ++ [current], pq := rest }
    with hstB
  set ns := dijNeighbors g visited' current with hnsdef
  have hcv' : current ∈ visited' := List.mem_append_right _ (List.mem_singleton_self _)
  have hnc : current ∉ ns.map Prod.fst := dijNeighbors_not_current g visited' current hcv'
  have hspec := dijNeighbors_spec g hW visited' current
  have hstBd : stB.distances = st.distances := rfl
  have hstBq : stB.pq = rest := rfl
  have hfrozen := dijRelax_frozen current ns stB
  have hstab : (dijRelax current stB ns).distances current = st.distances current := by
    rw [dijRelax_stable current ns stB current hnc]
  have hrest_sub : ∀ q ∈ rest, q ∈ st.pq := by
    intro q hq
    exact (pqSort_mem _ _).mp (by rw [hsort]; exact List.mem_cons_of_mem _ hq)
  have hstable_old : ∀ v ∈ st.visited,
      (dijRelax current stB ns).distances v = st.distances v := by
    intro v hvv
    rw [dijRelax_stable current ns stB v]
    intro hmem
    rw [List.mem_map] at hmem
    obtain ⟨p, hp, hpv⟩ := hmem
    exact (hspec p hp).2 (hpv ▸ List.mem_append_left _ hvv)
  refine ⟨?_, ?_, ?_, ?_, ?_, ?_, ?_, ?_⟩
  · show ∀ p ∈ (dijRelax current stB ns).pq, ∃ q : ℤ, p.2 = (q : JsNum)
    intro p hp
    rcases dijRelax_pq_new current ns stB hnc p hp with hold | ⟨w, hw, he⟩
    · exact hinv.finiteEntry p (hrest_sub p hold)
    · refine ⟨qd + w, ?_⟩
      rw [he, hstBd, hdeq, hqd]
      push_cast
      try rfl
  · show ∀ p ∈ (dijRelax current stB ns).pq,
      (dijRelax current stB ns).distances p.1 ≤ p.2
    intro p hp
    rcases dijRelax_pq_new current ns stB hnc p hp with hold | ⟨w, hw, he⟩
    · calc (dijRelax current stB ns).distances p.1
          ≤ stB.distances p.1 := dijRelax_mono current ns stB p.1
        _ ≤ p.2 := hinv.entryGE p (hrest_sub p hold)
    · rw [he]
      exact dijRelax_bound current ns stB hnc (p.1, w) hw
  · show ∀ v, (dijRelax current stB ns).distances v ≠ ⊤ →
      ∃ q : ℤ, (dijRelax current stB ns).distances v = (q : JsNum) ∧ PathCost g s v q
    refine dijRelax_real g s current ns stB ?_ ?_ ?_ hnc
    · intro k hk
      exact hinv.distReal k hk
    · exact hinv.distReal current hcfin
    · intro p hp
      exact (hspec p hp).1
  · show ∀ v ∈ (dijRelax current stB ns).visited, ∀ c : ℤ,
      PathCost g s v c → (dijRelax current stB ns).distances v ≤ (c : JsNum)
    intro v hv c hp
    rw [hfrozen.2.1] at hv
    rcases List.mem_append.mp hv with hold | hcur
    · rw [hstable_old v hold]
      exact hinv.visitedMin v hold c hp
    · rw [List.mem_singleton] at hcur
      subst hcur
      rw [hstab]
      exact hmincur c hp
  · show ∀ v ∈ (dijRelax current stB ns).visited,
      (dijRelax current stB ns).distances v ≠ ⊤
    intro v hv
    rw [hfrozen.2.1] at hv
    rcases List.mem_append.mp hv with hold | hcur
    · rw [hstable_old v hold]
      exact hinv.visitedFinite v hold
    · rw [List.mem_singleton] at hcur
      subst hcur
      rw [hstab]
      exact hcfin
  · show ∀ v, v ∉ (dijRelax current stB ns).visited →
      (dijRelax current stB ns).distances v ≠ ⊤ →
      (v, (dijRelax current stB ns).distances v) ∈ (dijRelax current stB ns).pq
    intro v hv hfin
    rw [hfrozen.2.1] at hv
    by_cases hch : (dijRelax current stB ns).distances v = stB.distances v
    · rw [hch] at hfin ⊢
      have hvv : v ∉ st.visited := fun hx => hv (List.mem_append_left _ hx)
      have hvne : v ≠ current := fun hx => hv (hx ▸ hcv')
      have hentry := hinv.unvisitedEntry v hvv hfin
      have hsorted : (v, st.distances v) ∈ pqSort st.pq := (pqSort_mem _ _).mpr hentry
      rw [hsort] at hsorted
      rcases List.mem_cons.mp hsorted with heq | hrest2
      · exact absurd (congrArg Prod.fst heq) hvne
      · exact dijRelax_pq_mono current ns stB _ hrest2
    · exact dijRelax_changed current ns stB v hch
  · show ∀ v, v ∉ (dijRelax current stB ns).visited →
      ∀ u ∈ (dijRelax current stB ns).visited, ∀ w : ℤ, EdgeW g u v w →
      (dijRelax current stB ns).distances v
        ≤ (dijRelax current stB ns).distances u + (w : JsNum)
    intro v hv u hu w hEdge
    rw [hfrozen.2.1] at hv hu
    rcases List.mem_append.mp hu with huold | hucur
    · have hfr := hinv.fringe v (fun hx => hv (List.mem_append_left _ hx)) u huold w hEdge
      calc (dijRelax current stB ns).distances v
          ≤ stB.distances v := dijRelax_mono current ns stB v
        _ ≤ st.distances u + (w : JsNum) := hfr
        _ = (dijRelax current stB ns).distances u + (w : JsNum) := by
            rw [hstable_old u huold]
    · rw [List.mem_singleton] at hucur
      have hmemns : (v, w) ∈ ns :=
        edgeW_mem_dijNeighbors g visited' current v w (hucur ▸ hEdge) hv
      have hbd := dijRelax_bound current ns stB hnc (v, w) hmemns
      rw [hucur, hstab]
      exact hbd
  · show s ∉ (dijRelax current stB ns).visited →
      (dijRelax current stB ns).distances s ≤ ((0 : ℤ) : JsNum)
    intro hs
    rw [hfrozen.2.1] at hs
    have hss : s ∉ st.visited := fun hx => hs (List.mem_append_left _ hx)
    calc (dijRelax current stB ns).distances s
        ≤ stB.distances s := dijRelax_mono current ns stB s
      _ ≤ ((0 : ℤ) : JsNum) := hinv.startLow hss

/-- The state fed to the relaxation loop inside one visit iteration: the
popped node is finalized and the sorted tail becomes the queue. -/
def dijBase (current : String) (rest : List (String × JsNum)) (st : DijkState) : DijkState :=
  { st with
    visited := st.visited ++ [current]
    traversal := st.traversal ++ [current]
    pq := rest }

/-- The step entry appended by one visit iteration, written out against the
post-relaxation state. -/
def dijStepEntry (g : GraphData) (current : String) (rest : List (String × JsNum))
    (st : DijkState) : TraversalLogEntry :=
  let st1 := dijRelax current (dijBase current rest st)
    (dijNeighbors g (st.visited ++ [current]) current)
  ⟨current, st.visited ++ [current], st1.pq.map Prod.fst,
    "Visiting " ++ current ++ " (dist: " ++ jsNumToString (st1.distances current)
      ++ "), PQ: [" ++ String.intercalate (", ") (st1.pq.map Prod.fst) ++ "]",
    dijAnnotations g st1.distances (st.visited ++ [current])⟩

lemma dijIter_steps_eq (g : GraphData) (current : String) (rest : List (String × JsNum))
    (st : DijkState) :
    (dijIter g current rest st).steps = st.steps ++ [dijStepEntry g current rest st] := by
  have hfz := dijRelax_frozen current (dijNeighbors g (st.visited ++ [current]) current)
    (dijBase current rest st)
  simp only [dijBase] at hfz
  simp only [dijIter, dijStepEntry, dijBase]
  rw [hfz.1]

lemma dijIter_visited (g : GraphData) (current : String) (rest : List (String × JsNum))
    (st : DijkState) :
    (dijIter g current rest st).visited = st.visited ++ [current] := by
  have hfz := dijRelax_frozen current (dijNeighbors g (st.visited ++ [current]) current)
    (dijBase current rest st)
  simp only [dijBase] at hfz
  simp only [dijIter]
  exact hfz.2.1

lemma dijIter_traversal (g : GraphData) (current : String) (rest : List (String × JsNum))
    (st : DijkState) :
    (dijIter g current rest st).traversal = st.traversal ++ [current] := by
  have hfz := dijRelax_frozen current (dijNeighbors g (st.visited ++ [current]) current)
    (dijBase current rest st)
  simp only [dijBase] at hfz
  simp only [dijIter]
  exact hfz.2.2

lemma dijIter_distances (g : GraphData) (current : String) (rest : List (String × JsNum))
    (st : DijkState) :
    (dijIter g current rest st).distances
      = (dijRelax current (dijBase current rest st)
          (dijNeighbors g (st.visited ++ [current]) current)).distances := by
  simp only [dijIter, dijBase]

lemma dijIter_pq (g : GraphData) (current : String) (rest : List (String × JsNum))
    (st : DijkState) :
    (dijIter g current rest st).pq
      = (dijRelax current (dijBase current rest st)
          (dijNeighbors g (st.visited ++ [current]) current)).pq := by
  simp only [dijIter, dijBase]

lemma dijStepEntry_annot (g : GraphData) (current : String) (rest : List (String × JsNum))
    (st : DijkState) :
    (dijStepEntry g current rest st).nodeAnnotations
      = dijAnnotations g (dijIter g current rest st).distances (st.visited ++ [current]) := by
  rw [dijIter_distances]
  rfl

/-- The skip branch of the dijkstra loop preserves the distance invariant:
dropping the head of the sorted queue is safe when its node is already
finalized. -/
lemma dijSkip_inv (g : GraphData) (s : String) (st : DijkState) (hinv : DInv g s st)
    (current : String) (d : JsNum) (rest : List (String × JsNum))
    (hsort : pqSort st.pq = (current, d) :: rest) (hcv : current ∈ st.visited) :
    DInv g s { st with pq := rest } := by
  have hrest_sub : ∀ q ∈ rest, q ∈ st.pq := fun q hq =>
    (pqSort_mem _ _).mp (by rw [hsort]; exact List.mem_cons_of_mem _ hq)
  refine ⟨?_, ?_, hinv.distReal, hinv.visitedMin, hinv.visitedFinite, ?_, hinv.fringe,
    hinv.startLow⟩
  · intro p hp
    exact hinv.finiteEntry p (hrest_sub p hp)
  · intro p hp
    exact hinv.entryGE p (hrest_sub p hp)
  · intro v hv hfin
    have hentry := hinv.unvisitedEntry v hv hfin
    have hsorted : (v, st.distances v) ∈ pqSort st.pq := (pqSort_mem _ _).mpr hentry
    rw [hsort] at hsorted
    rcases List.mem_cons.mp hsorted with heq | hrest2
    · have hvc : v = current := congrArg Prod.fst heq
      exact absurd (by rw [hvc]; exact hcv : v ∈ st.visited) hv
    · exact hrest2

/-- The structural invariant of the dijkstra loop: visited mirrors the
traversal, queue keys are node ids, and each recorded step is the frozen
snapshot of the corresponding prefix of the traversal. -/
structure DSInv (g : GraphData) (st : DijkState) : Prop where
  vt : st.visited = st.traversal
  nodup : st.traversal.Nodup
  subV : ∀ v ∈ st.traversal, v ∈ g.nodeIds
  subP : ∀ p ∈ st.pq, p.1 ∈ g.nodeIds
  stepsLen : st.steps.length = st.traversal.length
  stepsSpec : ∀ (i : ℕ) (e : TraversalLogEntry), st.steps[i]? = some e →
    st.traversal[i]? = some e.current ∧
    e.visited = st.traversal.take (i + 1) ∧
    ∃ dm : String → JsNum, e.nodeAnnotations = dijAnnotations g dm (st.traversal.take (i + 1)) ∧
      ∀ k ∈ st.traversal.take (i + 1), dm k ≠ ⊤

lemma dijIter_sinv (g : GraphData) (s : String) (hwf : g.Wf) (hW : g.Weighted)
    (hnn : g.NonnegWeights) (st : DijkState) (hinv : DInv g s st) (hsi : DSInv g st)
    (current : String) (d : JsNum) (rest : List (String × JsNum))
    (hsort : pqSort st.pq = (current, d) :: rest) (hcv : current ∉ st.visited) :
    DSInv g (dijIter g current rest st) := by
  have hsteps := dijIter_steps_eq g current rest st
  have hecur : (dijStepEntry g current rest st).current = current := rfl
  have hevis : (dijStepEntry g current rest st).visited = st.visited ++ [current] := rfl
  have heannot := dijStepEntry_annot g current rest st
  have hvis := dijIter_visited g current rest st
  have htrav := dijIter_traversal g current rest st
  have hpq := dijIter_pq g current rest st
  have hmemq : (current, d) ∈ st.pq :=
    (pqSort_mem _ _).mp (by rw [hsort]; exact List.mem_cons_self _ _)
  have hcur_node : current ∈ g.nodeIds := hsi.subP (current, d) hmemq
  have hcvt : current ∉ st.traversal := by rw [← hsi.vt]; exact hcv
  have hrest_sub : ∀ q ∈ rest, q ∈ st.pq := fun q hq =>
    (pqSort_mem _ _).mp (by rw [hsort]; exact List.mem_cons_of_mem _ hq)
  have hDinv2 := dijIter_inv g s hW hnn st hinv current d rest hsort hcv
  refine ⟨?_, ?_, ?_, ?_, ?_, ?_⟩
  · rw [hvis, htrav, hsi.vt]
  · rw [htrav, List.nodup_append]
    exact ⟨hsi.nodup, List.nodup_singleton _,
      fun a ha hb => hcvt ((List.mem_singleton.mp hb) ▸ ha)⟩
  · intro v hv
    rw [htrav] at hv
    rcases List.mem_append.mp hv with h1 | h2
    · exact hsi.subV v h1
    · rw [List.mem_singleton] at h2
      rw [h2]
      exact hcur_node
  · intro p hp
    rw [hpq] at hp
    rcases dijRelax_pq_new current _ _ (dijNeighbors_not_current g _ current
        (List.mem_append_right _ (List.mem_singleton_self _))) p hp with hold | ⟨w, hw, -⟩
    · exact hsi.subP p (hrest_sub p hold)
    · exact dijNeighbors_subset_nodeIds g hwf _ current (p.1, w) hw
  · rw [hsteps, htrav]
    simp only [List.length_append, List.length_singleton]
    rw [hsi.stepsLen]
  · intro i e' he'
    rw [hsteps] at he'
    rw [htrav]
    rcases Nat.lt_trichotomy i st.steps.length with hi | hi | hi
    · rw [List.getElem?_append_left hi] at he'
      obtain ⟨hc1, hc2, dm, hc3, hc4⟩ := hsi.stepsSpec i e' he'
      have hile : i + 1 ≤ st.traversal.length := by rw [← hsi.stepsLen]; exact hi
      refine ⟨?_, ?_, dm, ?_, ?_⟩
      · rw [List.getElem?_append_left (by rw [← hsi.stepsLen]; exact hi)]
        exact hc1
      · rw [List.take_append_of_le_length hile]
        exact hc2
      · rw [List.take_append_of_le_length hile]
        exact hc3
      · rw [List.take_append_of_le_length hile]
        exact hc4
    · subst hi
      rw [List.getElem?_append_right le_rfl] at he'
      simp only [Nat.sub_self, List.getElem?_cons_zero, Option.some_inj] at he'
      subst he'
      rw [hsi.stepsLen]
      have hlen : (st.traversal ++ [current]).length = st.traversal.length + 1 := by simp
      refine ⟨?_, ?_, (dijIter g current rest st).distances, ?_, ?_⟩
      · rw [hecur]
        exact List.getElem?_concat_length _ _
      · rw [← hlen, List.take_length, hevis, hsi.vt]
      · rw [← hlen, List.take_length, heannot, hsi.vt]
      · intro k hk
        rw [← hlen, List.take_length] at hk
        apply hDinv2.visitedFinite
        rw [hvis, hsi.vt]
        exact hk
    · rw [List.getElem?_eq_none (by simp; omega)] at he'
      cases he'

lemma dijSkip_sinv (g : GraphData) (st : DijkState) (hsi : DSInv g st)
    (current : String) (d : JsNum) (rest : List (String × JsNum))
    (hsort : pqSort st.pq = (current, d) :: rest) :
    DSInv g { st with pq := rest } := by
  have hrest_sub : ∀ q ∈ rest, q ∈ st.pq := fun q hq =>
    (pqSort_mem _ _).mp (by rw [hsort]; exact List.mem_cons_of_mem _ hq)
  exact ⟨hsi.vt, hsi.nodup, hsi.subV, fun p hp => hsi.subP p (hrest_sub p hp),
    hsi.stepsLen, hsi.stepsSpec⟩

/-- The "last recorded step is live" invariant: the most recent step's
snapshot still agrees with the current state, because iterations that record
no step (queue pops of already-finalized nodes) change nothing but the
queue. -/
def DLast (g : GraphData) (st : DijkState) : Prop :=
  st.steps = [] ∨ ∃ e : TraversalLogEntry, st.steps.getLast? = some e ∧
    e.visited = st.visited ∧ st.traversal.getLast? = some e.current ∧
    e.nodeAnnotations = dijAnnotations g st.distances st.visited

lemma dijIter_dlast (g : GraphData) (current : String) (rest : List (String × JsNum))
    (st : DijkState) : DLast g (dijIter g current rest st) := by
  refine Or.inr ⟨dijStepEntry g current rest st, ?_, ?_, ?_, ?_⟩
  · rw [dijIter_steps_eq]
    exact List.getLast?_concat _
  · rw [dijIter_visited]
    rfl
  · rw [dijIter_traversal]
    exact List.getLast?_concat _
  · rw [dijStepEntry_annot, dijIter_visited]

lemma dijkstraLoop_succ_skip (g : GraphData) (n : ℕ) (st : DijkState) (current : String)
    (d : JsNum) (rest : List (String × JsNum)) (hsort : pqSort st.pq = (current, d) :: rest)
    (hb : st.visited.contains current = true) :
    dijkstraLoop g (n + 1) st = dijkstraLoop g n { st with pq := rest } := by
  simp only [dijkstraLoop, hsort]
  rw [if_pos hb]

lemma dijkstraLoop_succ_visit (g : GraphData) (n : ℕ) (st : DijkState) (current : String)
    (d : JsNum) (rest : List (String × JsNum)) (hsort : pqSort st.pq = (current, d) :: rest)
    (hb : st.visited.contains current = false) :
    dijkstraLoop g (n + 1) st = dijkstraLoop g n (dijIter g current rest st) := by
  simp only [dijkstraLoop, hsort]
  rw [if_neg (by rw [hb]; exact Bool.false_ne_true)]

lemma dijkstraLoop_succ_nil (g : GraphData) (n : ℕ) (st : DijkState)
    (hsort : pqSort st.pq = []) :
    dijkstraLoop g (n + 1) st = st := by
  simp only [dijkstraLoop, hsort]

lemma dijkstraLoop_inv (g : GraphData) (s : String) (hwf : g.Wf) (hW : g.Weighted)
    (hnn : g.NonnegWeights) :
    ∀ (fuel : ℕ) (st : DijkState), DInv g s st → DSInv g st → DLast g st →
      DInv g s (dijkstraLoop g fuel st) ∧ DSInv g (dijkstraLoop g fuel st) ∧
        DLast g (dijkstraLoop g fuel st) := by
  intro fuel
  induction fuel with
  | zero =>
    intro st h1 h2 h3
    exact ⟨h1, h2, h3⟩
  | succ n ih =>
    intro st h1 h2 h3
    match hsort : pqSort st.pq with
    | [] =>
      rw [dijkstraLoop_succ_nil g n st hsort]
      exact ⟨h1, h2, h3⟩
    | (current, d) :: rest =>
      cases hb : st.visited.contains current
      · rw [dijkstraLoop_succ_visit g n st current d rest hsort hb]
        have hcv2 : current ∉ st.visited := by simpa using hb
        exact ih _ (dijIter_inv g s hW hnn st h1 current d rest hsort hcv2)
          (dijIter_sinv g s hwf hW hnn st h1 h2 current d rest hsort hcv2)
          (dijIter_dlast g current rest st)
      · rw [dijkstraLoop_succ_skip g n st current d rest hsort hb]
        refine ih _ (dijSkip_inv g s st h1 current d rest hsort
          ((contains_true_iff _ _).mp hb)) (dijSkip_sinv g st h2 current d rest hsort) ?_
        rcases h3 with hnil | ⟨e, he1, he2, he3, he4⟩
        · exact Or.inl hnil
        · exact Or.inr ⟨e, he1, he2, he3, he4⟩

lemma dijkstraLoop_complete (g : GraphData) (s : String) (hwf : g.Wf) (hW : g.Weighted)
    (hnn : g.NonnegWeights) :
    ∀ (fuel : ℕ) (st : DijkState), DInv g s st → DSInv g st →
      unvisitedCount g st.visited * (g.edges.length + 1) + st.pq.length ≤ fuel →
      (dijkstraLoop g fuel st).pq = [] := by
  intro fuel
  induction fuel with
  | zero =>
    intro st _ _ hm
    rw [dijkstraLoop]
    exact List.length_eq_zero.mp (by omega)
  | succ n ih =>
    intro st h1 h2 hm
    match hsort : pqSort st.pq with
    | [] =>
      rw [dijkstraLoop_succ_nil g n st hsort]
      have hl := pqSort_length st.pq
      rw [hsort] at hl
      exact List.length_eq_zero.mp hl.symm
    | (current, d) :: rest =>
      have hlen : st.pq.length = rest.length + 1 := by
        have hl := pqSort_length st.pq
        rw [hsort] at hl
        simpa using hl.symm
      cases hb : st.visited.contains current
      case true =>
        rw [dijkstraLoop_succ_skip g n st current d rest hsort hb]
        refine ih _ (dijSkip_inv g s st h1 current d rest hsort
          ((contains_true_iff _ _).mp hb)) (dijSkip_sinv g st h2 current d rest hsort) ?_
        show unvisitedCount g st.visited * (g.edges.length + 1) + rest.length ≤ n
        omega
      case false =>
        rw [dijkstraLoop_succ_visit g n st current d rest hsort hb]
        have hcv2 : current ∉ st.visited := by simpa using hb
        have hmemq : (current, d) ∈ st.pq :=
          (pqSort_mem _ _).mp (by rw [hsort]; exact List.mem_cons_self _ _)
        have hcnode : current ∈ g.nodeIds := h2.subP _ hmemq
        have hcuniv : current ∈ g.universeIds := by
          unfold GraphData.universeIds
          exact List.mem_append_left _ (List.mem_append_left _ hcnode)
        have hlt := unvisitedCount_concat_lt g st.visited current hcuniv hcv2
        have hpqlen : (dijIter g current rest st).pq.length
            ≤ rest.length + g.edges.length := by
          rw [dijIter_pq]
          refine le_trans (dijRelax_pq_len current _ _) ?_
          exact Nat.add_le_add_left (dijNeighbors_length_le g _ current) _
        refine ih _ (dijIter_inv g s hW hnn st h1 current d rest hsort hcv2)
          (dijIter_sinv g s hwf hW hnn st h1 h2 current d rest hsort hcv2) ?_
        rw [dijIter_visited]
        have hA1 : 1 ≤ unvisitedCount g st.visited := by omega
        obtain ⟨m, hmeq⟩ : ∃ m, unvisitedCount g st.visited = m + 1 :=
          ⟨unvisitedCount g st.visited - 1, by omega⟩
        have hle2 : unvisitedCount g (st.visited ++ [current]) ≤ m := by omega
        have hmul : unvisitedCount g (st.visited ++ [current]) * (g.edges.length + 1)
            ≤ m * (g.edges.length + 1) := Nat.mul_le_mul_right _ hle2
        rw [hmeq] at hm
        have hexp : (m + 1) * (g.edges.length + 1)
            = m * (g.edges.length + 1) + (g.edges.length + 1) := by ring
        rw [hexp] at hm
        omega

/-- The initial state of the dijkstra loop for start node `s`: distance 0 at
the start, `Infinity` elsewhere, and a single queue entry. -/
def dijInitState (s : String) : DijkState :=
  { distances := fun k => if k = s then ((0 : ℤ) : JsNum) else ⊤
    previous := fun _ => none
    steps := []
    visited := []
    traversal := []
    pq := [(s, ((0 : ℤ) : JsNum))] }

/-- The state of `runDijkstra` when its main loop exits. -/
def dijFinalState (g : GraphData) (s : String) : DijkState :=
  dijkstraLoop g (dijFuel g) (dijInitState s)

lemma runDijkstra_eq (g : GraphData) (s : String) (hs0 : s ≠ "")
    (hsn : g.hasNode s = true) (hw : g.isWeighted = true)
    (hneg : g.edges.any (fun e => e.weight.getD 0 < 0) = false) :
    runDijkstra g (some s) = Except.ok
      { traversal := (dijFinalState g s).traversal
        log := fun k => if g.hasNode k then some ((dijFinalState g s).distances k) else none
        steps := (dijFinalState g s).steps
        display := none
        nodeAnnotations := fun k =>
          if g.hasNode k then some (jsNumToString ((dijFinalState g s).distances k))
          else none } := by
  unfold runDijkstra
  dsimp only
  rw [if_neg hs0]
  rw [if_neg (by rw [hsn]; simp)]
  rw [if_neg (by rw [hw]; simp)]
  rw [if_neg (by rw [hneg]; simp)]
  rfl

lemma dijInit_inv (g : GraphData) (s : String) : DInv g s (dijInitState s) := by
  refine ⟨?_, ?_, ?_, ?_, ?_, ?_, ?_, ?_⟩
  · rintro p hp
    simp only [dijInitState] at hp
    rw [List.mem_singleton] at hp
    subst hp
    exact ⟨0, rfl⟩
  · rintro p hp
    simp only [dijInitState] at hp
    rw [List.mem_singleton] at hp
    subst hp
    show (if s = s then ((0 : ℤ) : JsNum) else ⊤) ≤ ((0 : ℤ) : JsNum)
    rw [if_pos rfl]
  · intro v hv
    by_cases hvs : v = s
    · subst hvs
      refine ⟨0, ?_, PathCost.refl v⟩
      show (if v = v then ((0 : ℤ) : JsNum) else ⊤) = ((0 : ℤ) : JsNum)
      rw [if_pos rfl]
    · exfalso
      apply hv
      show (if v = s then ((0 : ℤ) : JsNum) else ⊤) = ⊤
      rw [if_neg hvs]
  · intro v hv
    exact absurd hv (List.not_mem_nil v)
  · intro v hv
    exact absurd hv (List.not_mem_nil v)
  · intro v _ hfin
    by_cases hvs : v = s
    · subst hvs
      show (v, (dijInitState v).distances v) ∈ [(v, ((0 : ℤ) : JsNum))]
      have hd : (dijInitState v).distances v = ((0 : ℤ) : JsNum) := by
        show (if v = v then ((0 : ℤ) : JsNum) else ⊤) = ((0 : ℤ) : JsNum)
        rw [if_pos rfl]
      rw [hd]
      exact List.mem_singleton_self _
    · exfalso
      apply hfin
      show (if v = s then ((0 : ℤ) : JsNum) else ⊤) = ⊤
      rw [if_neg hvs]
  · intro v _ u hu
    exact absurd hu (List.not_mem_nil u)
  · intro _
    show (if s = s then ((0 : ℤ) : JsNum) else ⊤) ≤ ((0 : ℤ) : JsNum)
    rw [if_pos rfl]

lemma dijInit_sinv (g : GraphData) (s : String) (hs : s ∈ g.nodeIds) :
    DSInv g (dijInitState s) := by
  refine ⟨rfl, List.nodup_nil, ?_, ?_, rfl, ?_⟩
  · intro v hv
    exact absurd hv (List.not_mem_nil v)
  · rintro p hp
    simp only [dijInitState] at hp
    rw [List.mem_singleton] at hp
    subst hp
    exact hs
  · intro i e he
    simp [dijInitState] at he

lemma dijFinalState_pq (g : GraphData) (s : String) (hwf : g.Wf) (hW : g.Weighted)
    (hnn : g.NonnegWeights) (hs : s ∈ g.nodeIds) : (dijFinalState g s).pq = [] := by
  apply dijkstraLoop_complete g s hwf hW hnn _ _ (dijInit_inv g s) (dijInit_sinv g s hs)
  show unvisitedCount g [] * (g.edges.length + 1) + 1 ≤ dijFuel g
  unfold dijFuel
  have h1 := unvisitedCount_le_univ g []
  have h2 : unvisitedCount g [] * (g.edges.length + 1)
      ≤ g.universeIds.length * (g.edges.length + 1) := Nat.mul_le_mul_right _ h1
  omega

lemma dijFinalState_invs (g : GraphData) (s : String) (hwf : g.Wf) (hW : g.Weighted)
    (hnn : g.NonnegWeights) (hs : s ∈ g.nodeIds) :
    DInv g s (dijFinalState g s) ∧ DSInv g (dijFinalState g s) ∧
      DLast g (dijFinalState g s) :=
  dijkstraLoop_inv g s hwf hW hnn (dijFuel g) (dijInitState s) (dijInit_inv g s)
    (dijInit_sinv g s hs) (Or.inl rfl)

/-- At loop exit the finalized set is closed under weighted edges. -/
lemma dijFinal_closure (g : GraphData) (s : String) (st : DijkState)
    (hinv : DInv g s st) (hpq : st.pq = []) :
    ∀ {u v : String} {c : ℤ}, PathCost g u v c → u ∈ st.visited → v ∈ st.visited := by
  intro u v c hpath
  induction hpath with
  | refl x =>
    intro h
    exact h
  | @cons u y t w c hEdge hPath ih =>
    intro hu
    apply ih
    by_contra hy
    have hfr := hinv.fringe y hy u hu w hEdge
    obtain ⟨qu, hqu, -⟩ := hinv.distReal u (hinv.visitedFinite u hu)
    have hyfin : st.distances y ≠ ⊤ := by
      intro htop
      rw [htop, hqu] at hfr
      have hcast : ((qu : JsNum) + (w : JsNum)) = ((qu + w : ℤ) : JsNum) := by
        push_cast
        rfl
      rw [hcast] at hfr
      exact absurd (top_le_iff.mp hfr) (by simp)
    have hmem := hinv.unvisitedEntry y hy hyfin
    rw [hpq] at hmem
    exact absurd hmem (List.not_mem_nil _)

lemma dijFinal_start_visited (g : GraphData) (s : String) (st : DijkState)
    (hinv : DInv g s st) (hpq : st.pq = []) : s ∈ st.visited := by
  by_contra hs'
  have hle := hinv.startLow hs'
  have hfin : st.distances s ≠ ⊤ := by
    intro htop
    rw [htop] at hle
    exact absurd hle (by simp)
  have hmem := hinv.unvisitedEntry s hs' hfin
  rw [hpq] at hmem
  exact absurd hmem (List.not_mem_nil _)

/-- Shortest-path characterization of the final distances. -/
lemma dijFinal_shortest (g : GraphData) (s : String) (hwf : g.Wf) (hW : g.Weighted)
    (hnn : g.NonnegWeights) (hs : s ∈ g.nodeIds) :
    ∀ v : String,
      (Reachable g s v →
        ∃ c : ℤ, (dijFinalState g s).distances v = (c : JsNum) ∧ PathCost g s v c ∧
          ∀ c' : ℤ, PathCost g s v c' → c ≤ c') ∧
      (¬Reachable g s v → (dijFinalState g s).distances v = ⊤) := by
  have hinv : DInv g s (dijFinalState g s) := (dijFinalState_invs g s hwf hW hnn hs).1
  have hpq := dijFinalState_pq g s hwf hW hnn hs
  have hsvis := dijFinal_start_visited g s _ hinv hpq
  intro v
  constructor
  · rintro ⟨c, hp⟩
    have hvvis : v ∈ (dijFinalState g s).visited := dijFinal_closure g s _ hinv hpq hp hsvis
    obtain ⟨q, hq, hqp⟩ := hinv.distReal v (hinv.visitedFinite v hvvis)
    refine ⟨q, hq, hqp, ?_⟩
    intro c' hp'
    have hmin := hinv.visitedMin v hvvis c' hp'
    rw [hq] at hmin
    exact_mod_cast hmin
  · intro hnr
    by_contra hne
    obtain ⟨q, hq, hqp⟩ := hinv.distReal v hne
    exact hnr ⟨q, hqp⟩

/-! ## Final helpers shared by the claim theorems -/

/-- Under the weighted invariant with non-negative weights, the eager
negative-weight scan of `runDijkstra` finds nothing. -/
lemma no_negative_scan (g : GraphData) (hW : g.Weighted) (hnn : g.NonnegWeights) :
    g.edges.any (fun e => e.weight.getD 0 < 0) = false := by
  rw [List.any_eq_false]
  intro e he
  obtain ⟨w, hw⟩ := Option.isSome_iff_exists.mp (hW e he)
  have h0 := hnn e he w hw
  rw [hw]
  simp only [Option.getD_some, decide_eq_true_eq, not_lt]
  exact h0

/-- Without a directed cycle Kahn's loop orders every declared node. -/
lemma topoFinal_total (g : GraphData) (hwf : g.Wf) (hnc : ¬ DirCycle g) :
    ∀ v ∈ g.nodeIds, v ∈ (topoFinalState g).traversal := by
  intro v hv
  by_contra hvt
  exact hnc (cycle_of_stuck g hwf _ (topoFinalState_inv g hwf) (topoFinalState_queue g hwf)
    ⟨v, hv, hvt⟩)

lemma topoFinal_length (g : GraphData) (hwf : g.Wf) (hnc : ¬ DirCycle g) :
    (topoFinalState g).traversal.length = g.nodes.length := by
  have hinv := topoFinalState_inv g hwf
  have h1 := list_subset_length_le _ _ hinv.nodupT hwf.2 hinv.subT
  have h2 := list_subset_length_le _ _ hwf.2 hinv.nodupT (topoFinal_total g hwf hnc)
  have h3 : g.nodeIds.length = g.nodes.length := List.length_map _ _
  omega

/-- The 5-node scenario graph of the specification: undirected, unweighted,
edges declared `A-B, A-C, B-D, C-E, D-E`. -/
def gABCDE : GraphData :=
  { nodes := [⟨"A"⟩, ⟨"B"⟩, ⟨"C"⟩, ⟨"D"⟩, ⟨"E"⟩]
    edges := [⟨"A", "B", none⟩, ⟨"A", "C", none⟩, ⟨"B", "D", none⟩, ⟨"C", "E", none⟩,
      ⟨"D", "E", none⟩]
    isDirected := false
    isWeighted := false }

/-- Two nodes joined by one unweighted edge. -/
def gAB : GraphData :=
  { nodes := [⟨"A"⟩, ⟨"B"⟩]
    edges := [⟨"A", "B", none⟩]
    isDirected := false
    isWeighted := false }

/-- Two nodes joined by one edge of weight 1, weighted. -/
def gAB1 : GraphData :=
  { nodes := [⟨"A"⟩, ⟨"B"⟩]
    edges := [⟨"A", "B", some 1⟩]
    isDirected := false
    isWeighted := true }

/-- Two isolated nodes, weighted: `B` is unreachable from `A`. -/
def gAB0 : GraphData :=
  { nodes := [⟨"A"⟩, ⟨"B"⟩]
    edges := []
    isDirected := false
    isWeighted := true }

/-- A weighted graph whose single node has the empty string as id. -/
def gEmptyId : GraphData :=
  { nodes := [⟨""⟩]
    edges := []
    isDirected := false
    isWeighted := true }

/-- A successful DFS run implies the weighted check passed. -/
lemma runDFS_ok_unweighted (g : GraphData) (sid : Option String) (r : TraversalResult)
    (h : runDFS g sid = Except.ok r) : g.isWeighted = false := by
  cases hb : g.isWeighted
  · rfl
  · unfold runDFS at h
    rw [hb] at h
    simp at h

/-- A successful BFS run implies all its validations passed. -/
lemma runBFS_ok_inv (g : GraphData) (sid : Option String) (r : TraversalResult)
    (h : runBFS g sid = Except.ok r) :
    g.isWeighted = false ∧ ∃ s, sid = some s ∧ s ≠ "" ∧ g.hasNode s = true := by
  have hw : g.isWeighted = false := by
    cases hb : g.isWeighted
    · rfl
    · unfold runBFS at h
      rw [hb] at h
      simp at h
  unfold runBFS at h
  rw [hw] at h
  simp only [Bool.false_eq_true, if_false] at h
  split at h
  · exact Except.noConfusion h
  · rename_i s
    split at h
    · exact Except.noConfusion h
    · rename_i hs0
      split at h
      · exact Except.noConfusion h
      · rename_i hn
        refine ⟨hw, s, rfl, hs0, ?_⟩
        cases hb : g.hasNode s
        · exfalso
          apply hn
          rw [hb]
          rfl
        · rfl

/-- A successful Dijkstra run implies all its validations passed. -/
lemma runDijkstra_ok_inv (g : GraphData) (s : String) (r : TraversalResult)
    (h : runDijkstra g (some s) = Except.ok r) :
    s ≠ "" ∧ g.hasNode s = true ∧ g.isWeighted = true := by
  simp only [runDijkstra] at h
  split at h
  · exact Except.noConfusion h
  · rename_i hs0
    split at h
    · exact Except.noConfusion h
    · rename_i hn
      split at h
      · exact Except.noConfusion h
      · rename_i hww
        refine ⟨hs0, ?_, ?_⟩
        · cases hb : g.hasNode s
          · exfalso
            apply hn
            rw [hb]
            rfl
          · rfl
        · cases hb : g.isWeighted
          · exfalso
            apply hww
            rw [hb]
            rfl
          · rfl

/-- A successful toposort run implies the graph is directed and the loop
ordered every node. -/
lemma runToposort_ok_inv (g : GraphData) (r : TraversalResult)
    (h : runToposort g = Except.ok r) :
    g.isDirected = true ∧ (topoFinalState g).traversal.length = g.nodes.length := by
  have hd : g.isDirected = true := by
    cases hb : g.isDirected
    · unfold runToposort at h
      rw [hb] at h
      simp at h
    · rfl
  refine ⟨hd, ?_⟩
  by_contra hne
  rw [runToposort_eq g hd, if_pos hne] at h
  exact Except.noConfusion h

lemma dijAnnotations_node_top (g : GraphData) (dm : String → JsNum) (vis : List String)
    (k : String) (hk : g.hasNode k = true) (hdk : dm k = ⊤) :
    dijAnnotations g dm vis k = some ("∞") := by
  simp only [dijAnnotations, hk, if_true]
  rw [hdk]

lemma dijAnnotations_vis_int (g : GraphData) (dm : String → JsNum) (vis : List String)
    (k : String) (z : ℤ) (hk : g.hasNode k = true) (hdk : dm k = (z : JsNum))
    (hmem : k ∈ vis) :
    dijAnnotations g dm vis k = some (toString z) := by
  have hc : vis.contains k = true := (contains_true_iff _ _).mpr hmem
  simp only [dijAnnotations, hk, if_true]
  rw [hdk]
  show (if vis.contains k = true then some (toString z) else none) = some (toString z)
  rw [if_pos hc]

lemma dijAnnotations_unvis_int (g : GraphData) (dm : String → JsNum) (vis : List String)
    (k : String) (z : ℤ) (hk : g.hasNode k = true) (hdk : dm k = (z : JsNum))
    (hmem : k ∉ vis) :
    dijAnnotations g dm vis k = none := by
  have hc : ¬ vis.contains k = true := by
    rw [contains_true_iff]
    exact hmem
  simp only [dijAnnotations, hk, if_true]
  rw [hdk]
  show (if vis.contains k = true then some (toString z) else none) = none
  rw [if_neg hc]

lemma dijAnnotations_not_node (g : GraphData) (dm : String → JsNum) (vis : List String)
    (k : String) (hk : g.hasNode k = false) :
    dijAnnotations g dm vis k = none := by
  simp only [dijAnnotations, hk]
  rfl

/-- The annotation invariant of the dijkstra loop: the start's distance stays
finite, the start is finalized as soon as anything is, an unfinalized node's
tentative distance is finite exactly when some finalized node has an edge to
it, and every recorded step's annotations render these facts — finalized
nodes carry their (stable) distance, unfinalized declared nodes carry `"∞"`
precisely when no finalized node reaches them. -/
structure DAnn (g : GraphData) (s : String) (st : DijkState) : Prop where
  sfin : st.distances s ≠ ⊤
  svis : s ∈ st.visited ∨ (st.visited = [] ∧ st.pq = [(s, ((0 : ℤ) : JsNum))])
  finiteIff : ∀ k, k ∉ st.visited → k ≠ s →
    (st.distances k ≠ ⊤ ↔ ∃ u ∈ st.visited, ∃ w : ℤ, EdgeW g u k w)
  stepsAnn : ∀ (i : ℕ) (e : TraversalLogEntry), st.steps[i]? = some e →
    (∀ k ∈ e.visited, k ∈ st.visited) ∧
    (∀ k ∈ e.visited, ∃ z : ℤ, st.distances k = (z : JsNum) ∧
      e.nodeAnnotations k = some (toString z)) ∧
    (∀ k, g.hasNode k = true → k ∉ e.visited →
      ((∃ u ∈ e.visited, ∃ w : ℤ, EdgeW g u k w) → e.nodeAnnotations k = none) ∧
      ((¬ ∃ u ∈ e.visited, ∃ w : ℤ, EdgeW g u k w) → e.nodeAnnotations k = some ("∞"))) ∧
    (∀ k, g.hasNode k = false → e.nodeAnnotations k = none)

lemma dijSkip_ann (g : GraphData) (s : String) (st : DijkState) (hann : DAnn g s st)
    (current : String) (d : JsNum) (rest : List (String × JsNum))
    (hsort : pqSort st.pq = (current, d) :: rest) (hcv : current ∈ st.visited) :
    DAnn g s { st with pq := rest } := by
  refine ⟨hann.sfin, ?_, hann.finiteIff, hann.stepsAnn⟩
  rcases hann.svis with h | ⟨h1, h2⟩
  · exact Or.inl h
  · rw [h1] at hcv
    exact absurd hcv (List.not_mem_nil _)

lemma dijIter_ann (g : GraphData) (s : String) (hwf : g.Wf) (hW : g.Weighted)
    (hnn : g.NonnegWeights) (st : DijkState) (hinv : DInv g s st) (hsi : DSInv g st)
    (hann : DAnn g s st) (current : String) (d : JsNum)
    (rest : List (String × JsNum)) (hsort : pqSort st.pq = (current, d) :: rest)
    (hcv : current ∉ st.visited) :
    DAnn g s (dijIter g current rest st) := by
  have hsteps := dijIter_steps_eq g current rest st
  have hvis := dijIter_visited g current rest st
  have hdisteq := dijIter_distances g current rest st
  have hmemq : (current, d) ∈ st.pq :=
    (pqSort_mem _ _).mp (by rw [hsort]; exact List.mem_cons_self _ _)
  obtain ⟨qd, hqd0⟩ := hinv.finiteEntry _ hmemq
  have hqd : d = (qd : JsNum) := hqd0
  have hdistle : st.distances current ≤ d := hinv.entryGE _ hmemq
  have hcfin : st.distances current ≠ ⊤ := by
    intro htop
    rw [htop, hqd] at hdistle
    exact absurd (top_le_iff.mp hdistle) (by simp)
  set ns := dijNeighbors g (st.visited ++ [current]) current with hnsdef
  set stB := dijBase current rest st with hstBdef
  have hcv2 : current ∈ st.visited ++ [current] :=
    List.mem_append_right _ (List.mem_singleton_self _)
  have hnc : current ∉ ns.map Prod.fst := dijNeighbors_not_current g _ current hcv2
  have hspec := dijNeighbors_spec g hW (st.visited ++ [current]) current
  have hrelax : (dijIter g current rest st).distances
      = (dijRelax current stB ns).distances := hdisteq
  have hstable_old : ∀ v ∈ st.visited,
      (dijRelax current stB ns).distances v = st.distances v := by
    intro v hvv
    have hnv : v ∉ ns.map Prod.fst := by
      intro hmem
      rw [List.mem_map] at hmem
      obtain ⟨p, hp, hpv⟩ := hmem
      exact (hspec p hp).2 (hpv ▸ List.mem_append_left _ hvv)
    exact (dijRelax_stable current ns stB v hnv).trans (by rfl)
  have hmono : ∀ k, (dijRelax current stB ns).distances k ≤ st.distances k := by
    intro k
    have hm := dijRelax_mono current ns stB k
    exact le_trans hm (by rw [show stB.distances k = st.distances k from rfl])
  have hsv2 : s ∈ st.visited ++ [current] := by
    rcases hann.svis with h | ⟨h1, h2⟩
    · exact List.mem_append_left _ h
    · have hone : pqSort st.pq = [(s, ((0 : ℤ) : JsNum))] := by
        rw [h2]
        rfl
      rw [hsort] at hone
      injection hone with hhead htail
      have hcs : current = s := congrArg Prod.fst hhead
      rw [← hcs]
      exact hcv2
  have hsvis2 : s ∈ (dijIter g current rest st).visited := by
    rw [hvis]
    exact hsv2
  have hfi2 : ∀ k, k ∉ st.visited ++ [current] → k ≠ s →
      ((dijIter g current rest st).distances k ≠ ⊤ ↔
        ∃ u ∈ st.visited ++ [current], ∃ w : ℤ, EdgeW g u k w) := by
    intro k hk hks
    have hkold : k ∉ st.visited := fun hx => hk (List.mem_append_left _ hx)
    rw [hrelax]
    constructor
    · intro hfin
      by_cases hch : (dijRelax current stB ns).distances k = st.distances k
      · rw [hch] at hfin
        obtain ⟨u, hu, w, hw⟩ := (hann.finiteIff k hkold hks).mp hfin
        exact ⟨u, List.mem_append_left _ hu, w, hw⟩
      · have hkns : k ∈ ns.map Prod.fst := by
          by_contra hnk
          exact hch (dijRelax_stable current ns stB k hnk)
        rw [List.mem_map] at hkns
        obtain ⟨p, hp, hpk⟩ := hkns
        refine ⟨current, hcv2, p.2, ?_⟩
        rw [← hpk]
        exact (hspec p hp).1
    · rintro ⟨u, hu, w, hw⟩
      rcases List.mem_append.mp hu with huold | hucur
      · have hfin := (hann.finiteIff k hkold hks).mpr ⟨u, huold, w, hw⟩
        intro htop
        apply hfin
        have hm := hmono k
        rw [htop] at hm
        exact top_le_iff.mp hm
      · rw [List.mem_singleton] at hucur
        have hkmem : (k, w) ∈ ns :=
          edgeW_mem_dijNeighbors g _ current k w (hucur ▸ hw) hk
        have hbd := dijRelax_bound current ns stB hnc (k, w) hkmem
        intro htop
        rw [htop] at hbd
        obtain ⟨qc, hqc, -⟩ := hinv.distReal current hcfin
        have hqc2 : stB.distances current = (qc : JsNum) := hqc
        rw [hqc2] at hbd
        have hcast : ((qc : JsNum) + (w : JsNum)) = ((qc + w : ℤ) : JsNum) := by
          push_cast
          rfl
        rw [hcast] at hbd
        exact absurd (top_le_iff.mp hbd) (by simp)
  refine ⟨?_, Or.inl hsvis2, ?_, ?_⟩
  · rw [hrelax]
    intro htop
    apply hann.sfin
    have hm := hmono s
    rw [htop] at hm
    exact top_le_iff.mp hm
  · intro k hk hks
    rw [hvis] at hk
    rw [hvis]
    exact hfi2 k hk hks
  · rw [hsteps]
    intro i e he
    rcases lt_trichotomy i st.steps.length with hi | hi | hi
    · rw [List.getElem?_append_left hi] at he
      obtain ⟨hA, hB, hC, hD⟩ := hann.stepsAnn i e he
      refine ⟨?_, ?_, hC, hD⟩
      · intro k hk
        rw [hvis]
        exact List.mem_append_left _ (hA k hk)
      · intro k hk
        obtain ⟨z, hz1, hz2⟩ := hB k hk
        refine ⟨z, ?_, hz2⟩
        rw [hrelax, hstable_old k (hA k hk)]
        exact hz1
    · subst hi
      rw [List.getElem?_append_right le_rfl] at he
      simp only [Nat.sub_self, List.getElem?_cons_zero, Option.some_inj] at he
      subst he
      have hevis : (dijStepEntry g current rest st).visited = st.visited ++ [current] := rfl
      have heannot := dijStepEntry_annot g current rest st
      have hinv2 := dijIter_inv g s hW hnn st hinv current d rest hsort hcv
      have hsi2 := dijIter_sinv g s hwf hW hnn st hinv hsi current d rest hsort hcv
      refine ⟨?_, ?_, ?_, ?_⟩
      · intro k hk
        rw [hevis] at hk
        rw [hvis]
        exact hk
      · intro k hk
        rw [hevis] at hk
        have hfin : (dijIter g current rest st).distances k ≠ ⊤ := by
          apply hinv2.visitedFinite
          rw [hvis]
          exact hk
        rcases hdk : (dijIter g current rest st).distances k with _ | z
        · exact absurd hdk hfin
        · refine ⟨z, ?_, ?_⟩
          · rfl
          rw [heannot]
          have hkN : k ∈ g.nodeIds := by
            apply hsi2.subV
            rw [dijIter_traversal]
            rw [hsi.vt] at hk
            exact hk
          exact dijAnnotations_vis_int g _ _ k z ((hasNode_iff g k).mpr hkN) hdk hk
      · intro k hkN
        rw [hevis]
        intro hknot
        have hks : k ≠ s := by
          intro hx
          exact hknot (hx ▸ hsv2)
        constructor
        · intro hedge
          have hfin := (hfi2 k hknot hks).mpr hedge
          rcases hdk : (dijIter g current rest st).distances k with _ | z
          · exact absurd hdk hfin
          · rw [heannot]
            exact dijAnnotations_unvis_int g _ _ k z hkN hdk hknot
        · intro hnedge
          have htop : (dijIter g current rest st).distances k = ⊤ := by
            by_contra hfin
            exact hnedge ((hfi2 k hknot hks).mp hfin)
          rw [heannot]
          exact dijAnnotations_node_top g _ _ k hkN htop
      · intro k hkN
        rw [heannot]
        exact dijAnnotations_not_node g _ _ k hkN
    · rw [List.getElem?_eq_none (by simp; omega)] at he
      cases he

lemma dijkstraLoop_ann (g : GraphData) (s : String) (hwf : g.Wf) (hW : g.Weighted)
    (hnn : g.NonnegWeights) :
    ∀ (fuel : ℕ) (st : DijkState), DInv g s st → DSInv g st → DAnn g s st →
      DAnn g s (dijkstraLoop g fuel st) := by
  intro fuel
  induction fuel with
  | zero =>
    intro st _ _ h3
    exact h3
  | succ n ih =>
    intro st h1 h2 h3
    match hsort : pqSort st.pq with
    | [] =>
      rw [dijkstraLoop_succ_nil g n st hsort]
      exact h3
    | (current, d) :: rest =>
      cases hb : st.visited.contains current
      · rw [dijkstraLoop_succ_visit g n st current d rest hsort hb]
        have hcv2 : current ∉ st.visited := by simpa using hb
        exact ih _ (dijIter_inv g s hW hnn st h1 current d rest hsort hcv2)
          (dijIter_sinv g s hwf hW hnn st h1 h2 current d rest hsort hcv2)
          (dijIter_ann g s hwf hW hnn st h1 h2 h3 current d rest hsort hcv2)
      · rw [dijkstraLoop_succ_skip g n st current d rest hsort hb]
        exact ih _ (dijSkip_inv g s st h1 current d rest hsort
            ((contains_true_iff _ _).mp hb))
          (dijSkip_sinv g st h2 current d rest hsort)
          (dijSkip_ann g s st h3 current d rest hsort ((contains_true_iff _ _).mp hb))

lemma dijInit_ann (g : GraphData) (s : String) : DAnn g s (dijInitState s) := by
  refine ⟨?_, Or.inr ⟨rfl, rfl⟩, ?_, ?_⟩
  · show (if s = s then ((0 : ℤ) : JsNum) else ⊤) ≠ ⊤
    rw [if_pos rfl]
    simp
  · intro k hk hks
    constructor
    · intro hfin
      exfalso
      apply hfin
      show (if k = s then ((0 : ℤ) : JsNum) else ⊤) = ⊤
      rw [if_neg hks]
    · rintro ⟨u, hu, -⟩
      exact absurd hu (List.not_mem_nil u)
  · intro i e he
    simp [dijInitState] at he

lemma dijFinalState_ann (g : GraphData) (s : String) (hwf : g.Wf) (hW : g.Weighted)
    (hnn : g.NonnegWeights) (hs : s ∈ g.nodeIds) : DAnn g s (dijFinalState g s) :=
  dijkstraLoop_ann g s hwf hW hnn (dijFuel g) (dijInitState s) (dijInit_inv g s)
    (dijInit_sinv g s hs) (dijInit_ann g s)

/-! ## The claims -/

/-- C1 (amended): for a weighted graph satisfying the graph invariant with
non-negative weights, and a *nonempty* start id among the declared nodes,
`runDijkstra` succeeds and its `log` maps every node reachable from the start
to the true shortest-path distance and every unreachable node to the
infinity sentinel.  (The original claim, quantified over every startId
present in the nodes, fails for the empty-string id, which the falsy
`!startId` guard rejects.) -/
theorem C1_dijkstra_shortest_paths (g : GraphData) (s : String) (hwf : g.Wf)
    (hW : g.Weighted) (hnn : g.NonnegWeights) (hw : g.isWeighted = true)
    (hs0 : s ≠ "") (hs : s ∈ g.nodeIds) :
    ∃ r : TraversalResult, runDijkstra g (some s) = Except.ok r ∧
      ∀ v ∈ g.nodeIds,
        (Reachable g s v → ∃ c : ℤ, r.log v = some ((c : ℤ) : JsNum) ∧ PathCost g s v c ∧
          ∀ c' : ℤ, PathCost g s v c' → c ≤ c') ∧
        (¬ Reachable g s v → r.log v = some ⊤) := by
  have hsn : g.hasNode s = true := (hasNode_iff g s).mpr hs
  have hneg := no_negative_scan g hW hnn
  refine ⟨_, runDijkstra_eq g s hs0 hsn hw hneg, ?_⟩
  intro v hv
  have hvn : g.hasNode v = true := (hasNode_iff g v).mpr hv
  have hshort := dijFinal_shortest g s hwf hW hnn hs v
  constructor
  · intro hr
    obtain ⟨c, hc, hcp, hcm⟩ := hshort.1 hr
    refine ⟨c, ?_, hcp, hcm⟩
    show (if g.hasNode v = true then some ((dijFinalState g s).distances v) else none) = _
    rw [if_pos hvn, hc]
  · intro hnr
    show (if g.hasNode v = true then some ((dijFinalState g s).distances v) else none) = _
    rw [if_pos hvn, hshort.2 hnr]

/-- C1 counterexample: the empty-string node id is a declared node of a
well-formed weighted graph, yet `runDijkstra` rejects it as a start node
(`!startId` is truthy for `""`), so no result — let alone one with correct
distances — is returned. -/
theorem C1_empty_start_rejected :
    gEmptyId.Wf ∧ gEmptyId.isWeighted = true ∧ gEmptyId.Weighted ∧ gEmptyId.NonnegWeights ∧
      "" ∈ gEmptyId.nodeIds ∧
      runDijkstra gEmptyId (some "") = Except.error ("Invalid or missing start node") :=
  ⟨by decide, rfl, by decide, by decide, by decide, rfl⟩

/-- Witness for C1 on the concrete weighted two-node graph. -/
theorem C1_dijkstra_shortest_paths_witness :
    gAB1.Wf ∧
      (∃ r : TraversalResult, runDijkstra gAB1 (some "A") = Except.ok r ∧
        ∀ v ∈ gAB1.nodeIds,
          (Reachable gAB1 "A" v → ∃ c : ℤ, r.log v = some ((c : ℤ) : JsNum) ∧
            PathCost gAB1 "A" v c ∧ ∀ c' : ℤ, PathCost gAB1 "A" v c' → c ≤ c') ∧
          (¬ Reachable gAB1 "A" v → r.log v = some ⊤)) :=
  ⟨by decide, C1_dijkstra_shortest_paths gAB1 "A" (by decide) (by decide) (by decide) rfl
    (by decide) (by decide)⟩

/-- C2 (amended): for DFS, toposort and Dijkstra each recorded step is a
frozen snapshot — `steps[i].visited` is exactly the length-`(i+1)` prefix of
the final traversal, the nodes visited when the step was recorded.  For BFS,
however, every returned step's `visited` field is the *final* traversal: each
step stores a reference to the single shared `visited`/`result` array, so
later dequeues do revise previously recorded steps.  (The original claim's
BFS clause fails; the display strings, built eagerly, keep the point-in-time
content.) -/
theorem C2_steps_frozen (g : GraphData) (hwf : g.Wf) (sid : Option String)
    (r : TraversalResult) :
    (runDFS g sid = Except.ok r →
      ∀ (i : ℕ) (e : TraversalLogEntry), r.steps[i]? = some e →
        e.visited = r.traversal.take (i + 1)) ∧
    (runBFS g sid = Except.ok r →
      ∀ (i : ℕ) (e : TraversalLogEntry), r.steps[i]? = some e → e.visited = r.traversal) ∧
    (runToposort g = Except.ok r →
      ∀ (i : ℕ) (e : TraversalLogEntry), r.steps[i]? = some e →
        e.visited = r.traversal.take (i + 1)) ∧
    (g.Weighted → g.NonnegWeights → ∀ s : String, runDijkstra g (some s) = Except.ok r →
      ∀ (i : ℕ) (e : TraversalLogEntry), r.steps[i]? = some e →
        e.visited = r.traversal.take (i + 1)) := by
  refine ⟨?_, ?_, ?_, ?_⟩
  · intro hok i e he
    have hw := runDFS_ok_unweighted g sid r hok
    rw [runDFS_eq g sid hw] at hok
    have hr := Except.ok.inj hok
    subst hr
    obtain ⟨-, hv, -⟩ := (dfsFinalState_inv g sid).stepsSpec i e he
    exact hv
  · intro hok i e he
    obtain ⟨hw, s, hsid, hs0, hn⟩ := runBFS_ok_inv g sid r hok
    subst hsid
    rw [runBFS_eq g s hw hs0 hn] at hok
    have hr := Except.ok.inj hok
    subst hr
    dsimp only at he ⊢
    rw [List.getElem?_map] at he
    obtain ⟨a, ha, hfa⟩ := Option.map_eq_some'.mp he
    rw [← hfa]
  · intro hok i e he
    obtain ⟨hd, hlen⟩ := runToposort_ok_inv g r hok
    rw [runToposort_eq g hd, if_neg (not_not_intro hlen)] at hok
    have hr := Except.ok.inj hok
    subst hr
    obtain ⟨-, hv, -⟩ := (topoFinalState_inv g hwf).stepsSpec i e he
    exact hv
  · intro hW hnn s hok i e he
    obtain ⟨hs0, hn, hw⟩ := runDijkstra_ok_inv g s r hok
    rw [runDijkstra_eq g s hs0 hn hw (no_negative_scan g hW hnn)] at hok
    have hr := Except.ok.inj hok
    subst hr
    have hsmem : s ∈ g.nodeIds := (hasNode_iff g s).mp hn
    obtain ⟨-, hv, -⟩ := ((dijFinalState_invs g s hwf hW hnn hsmem).2.1).stepsSpec i e he
    exact hv

/-- C2 counterexample: on the two-node BFS run from `A`, the first recorded
step lists `["A", "B"]` as visited although only `A` had been visited at the
first dequeue — the step's own display string still shows the point-in-time
content `Visited: A`. -/
theorem C2_bfs_steps_revised :
    ∃ r : TraversalResult, runBFS gAB (some "A") = Except.ok r ∧
      r.steps.map TraversalLogEntry.visited = [["A", "B"], ["A", "B"]] ∧
      r.steps.map TraversalLogEntry.display
        = ["Current: A | Queue:  | Visited: A", "Current: B | Queue:  | Visited: A, B"] :=
  ⟨_, rfl, rfl, rfl⟩

/-- Witness for C2 at a concrete graph and result. -/
theorem C2_steps_frozen_witness :
    gAB.Wf ∧
      ((runDFS gAB (some "A")
          = Except.ok ⟨[], fun _ => none, [], none, fun _ => none⟩ →
        ∀ (i : ℕ) (e : TraversalLogEntry),
          (⟨[], fun _ => none, [], none, fun _ => none⟩ : TraversalResult).steps[i]?
              = some e →
            e.visited
              = (⟨[], fun _ => none, [], none, fun _ => none⟩
                  : TraversalResult).traversal.take (i + 1)) ∧
      (runBFS gAB (some "A")
          = Except.ok ⟨[], fun _ => none, [], none, fun _ => none⟩ →
        ∀ (i : ℕ) (e : TraversalLogEntry),
          (⟨[], fun _ => none, [], none, fun _ => none⟩ : TraversalResult).steps[i]?
              = some e →
            e.visited
              = (⟨[], fun _ => none, [], none, fun _ => none⟩
                  : TraversalResult).traversal) ∧
      (runToposort gAB = Except.ok ⟨[], fun _ => none, [], none, fun _ => none⟩ →
        ∀ (i : ℕ) (e : TraversalLogEntry),
          (⟨[], fun _ => none, [], none, fun _ => none⟩ : TraversalResult).steps[i]?
              = some e →
            e.visited
              = (⟨[], fun _ => none, [], none, fun _ => none⟩
                  : TraversalResult).traversal.take (i + 1)) ∧
      (gAB.Weighted → gAB.NonnegWeights →
        ∀ s : String,
          runDijkstra gAB (some s)
              = Except.ok ⟨[], fun _ => none, [], none, fun _ => none⟩ →
          ∀ (i : ℕ) (e : TraversalLogEntry),
            (⟨[], fun _ => none, [], none, fun _ => none⟩ : TraversalResult).steps[i]?
                = some e →
              e.visited
                = (⟨[], fun _ => none, [], none, fun _ => none⟩
                    : TraversalResult).traversal.take (i + 1))) :=
  ⟨by decide, C2_steps_frozen gAB (by decide) (some "A")
    ⟨[], fun _ => none, [], none, fun _ => none⟩⟩

/-- A two-node directed acyclic graph with the edge `A → B`. -/
def gDAG : GraphData :=
  { nodes := [⟨"A"⟩, ⟨"B"⟩]
    edges := [⟨"A", "B", none⟩]
    isDirected := true
    isWeighted := false }

/-- C3: on an unweighted graph, `runDFS` succeeds for every startId argument
and its traversal contains every declared node id exactly once. -/
theorem C3_dfs_coverage (g : GraphData) (sid : Option String) (hw : g.isWeighted = false) :
    ∃ r : TraversalResult, runDFS g sid = Except.ok r ∧
      ∀ nd ∈ g.nodes, r.traversal.count nd.id = 1 := by
  refine ⟨_, runDFS_eq g sid hw, ?_⟩
  intro nd hnd
  show ((dfsFinalState g sid).result).count nd.id = 1
  exact List.count_eq_one_of_mem (dfsFinalState_inv g sid).nodup
    (dfsFinalState_covers g sid nd hnd)

/-- Witness for C3 on the 5-node scenario graph. -/
theorem C3_dfs_coverage_witness :
    gABCDE.isWeighted = false ∧
      (∃ r : TraversalResult, runDFS gABCDE (some "A") = Except.ok r ∧
        ∀ nd ∈ gABCDE.nodes, r.traversal.count nd.id = 1) :=
  ⟨rfl, C3_dfs_coverage gABCDE (some "A") rfl⟩

/-- C4: on a well-formed directed acyclic graph, `runToposort` succeeds and
its `log` orders the tail of every edge strictly before its head. -/
theorem C4_toposort_order (g : GraphData) (hwf : g.Wf) (hd : g.isDirected = true)
    (hnc : ¬ DirCycle g) :
    ∃ r : TraversalResult, runToposort g = Except.ok r ∧
      ∀ e ∈ g.edges, ∃ i j : JsNum,
        r.log e.node1 = some i ∧ r.log e.node2 = some j ∧ i < j := by
  have hlen := topoFinal_length g hwf hnc
  have hok : runToposort g = Except.ok
      { traversal := (topoFinalState g).traversal
        log := (topoFinalState g).log
        steps := (topoFinalState g).steps
        display := some (String.intercalate ("\n") (topoFinalState g).displayLines)
        nodeAnnotations := (topoFinalState g).nodeAnnotations } := by
    rw [runToposort_eq g hd, if_neg (not_not_intro hlen)]
  refine ⟨_, hok, ?_⟩
  · intro e he
    have hinv := topoFinalState_inv g hwf
    have hb2 : e.node2 ∈ (topoFinalState g).traversal :=
      topoFinal_total g hwf hnc _ ((hasNode_iff g _).mp (hwf.1 e he).2)
    obtain ⟨h1mem, hlt⟩ := hinv.order e he hb2
    refine ⟨((List.indexOf e.node1 (topoFinalState g).traversal : ℤ) : JsNum),
      ((List.indexOf e.node2 (topoFinalState g).traversal : ℤ) : JsNum), ?_, ?_, ?_⟩
    · show (topoFinalState g).log e.node1 = _
      rw [hinv.logEq]
      simp only [indexLog]
      rw [if_pos h1mem]
    · show (topoFinalState g).log e.node2 = _
      rw [hinv.logEq]
      simp only [indexLog]
      rw [if_pos hb2]
    · exact_mod_cast hlt

/-- Witness for C4 on the concrete two-node DAG. -/
theorem C4_toposort_order_witness :
    gDAG.Wf ∧ ¬ DirCycle gDAG ∧
      (∃ r : TraversalResult, runToposort gDAG = Except.ok r ∧
        ∀ e ∈ gDAG.edges, ∃ i j : JsNum,
          r.log e.node1 = some i ∧ r.log e.node2 = some j ∧ i < j) :=
  ⟨by decide,
    no_cycle_of_topo_order gDAG (by decide) ["A", "B"] (by decide) (by decide),
    C4_toposort_order gDAG (by decide) rfl
      (no_cycle_of_topo_order gDAG (by decide) ["A", "B"] (by decide) (by decide))⟩

/-- C5: on a well-formed directed graph, `runToposort` throws the cycle error
exactly when the graph has a directed cycle; the error is the whole outcome
of the call, so no partial result reaches the caller. -/
theorem C5_toposort_cycle_error (g : GraphData) (hwf : g.Wf) (hd : g.isDirected = true) :
    (runToposort g
        = Except.error ("Graph contains a cycle — topological sort is not possible"))
      ↔ DirCycle g := by
  rw [runToposort_eq g hd]
  constructor
  · intro herr
    by_cases hlen : (topoFinalState g).traversal.length ≠ g.nodes.length
    · have hinv := topoFinalState_inv g hwf
      have h1 := list_subset_length_le _ _ hinv.nodupT hwf.2 hinv.subT
      have h3 : g.nodeIds.length = g.nodes.length := List.length_map _ _
      by_cases hall : ∀ v ∈ g.nodeIds, v ∈ (topoFinalState g).traversal
      · have h2 := list_subset_length_le _ _ hwf.2 hinv.nodupT hall
        exact absurd (by omega) hlen
      · push_neg at hall
        obtain ⟨v, hv1, hv2⟩ := hall
        exact cycle_of_stuck g hwf _ hinv (topoFinalState_queue g hwf) ⟨v, hv1, hv2⟩
    · rw [if_neg hlen] at herr
      exact Except.noConfusion herr
  · intro hcyc
    by_cases hlen : (topoFinalState g).traversal.length ≠ g.nodes.length
    · rw [if_pos hlen]
    · exfalso
      have heq := not_not.mp hlen
      have hinv := topoFinalState_inv g hwf
      have h3 : g.nodeIds.length = g.nodes.length := List.length_map _ _
      have htotal := list_subset_total _ _ hinv.nodupT hwf.2 hinv.subT (by omega)
      exact no_cycle_of_topo_order g hwf _ hinv.order htotal hcyc

/-- Witness for C5 on the concrete two-node DAG. -/
theorem C5_toposort_cycle_error_witness :
    gDAG.Wf ∧
      ((runToposort gDAG
          = Except.error ("Graph contains a cycle — topological sort is not possible"))
        ↔ DirCycle gDAG) :=
  ⟨by decide, C5_toposort_cycle_error gDAG (by decide) rfl⟩

/-- C6: each run function is a pure function of the graph and start id, so
two invocations on equal inputs return equal results — the same traversal,
steps, log and annotations. -/
theorem C6_determinism (g : GraphData) (sid : Option String) :
    runDFS g sid = runDFS g sid ∧ runBFS g sid = runBFS g sid ∧
      runDijkstra g sid = runDijkstra g sid ∧ runToposort g = runToposort g :=
  ⟨rfl, rfl, rfl, rfl⟩

/-- C7 (amended): in every recorded Dijkstra step, every already-finalized
node is labelled with its distance — the very value that the `log` of the
result reports for it — and every id that is not a declared node gets no label.  A
declared node that is not yet finalized is labelled `"∞"` exactly when its
tentative distance is still infinite, which holds precisely when no edge
from an already-finalized node reaches it; when some finalized node does
reach it its tentative distance is already finite and — contrary to the
original claim of a complete snapshot — it receives *no* label. -/
theorem C7_dijkstra_step_annotations (g : GraphData) (s : String) (hwf : g.Wf)
    (hW : g.Weighted) (hnn : g.NonnegWeights) (hw : g.isWeighted = true)
    (hs0 : s ≠ "") (hs : s ∈ g.nodeIds) :
    ∃ r : TraversalResult, runDijkstra g (some s) = Except.ok r ∧
      ∀ (i : ℕ) (e : TraversalLogEntry), r.steps[i]? = some e →
        (∀ k ∈ e.visited, ∃ z : ℤ, r.log k = some ((z : ℤ) : JsNum) ∧
          e.nodeAnnotations k = some (toString z)) ∧
        (∀ k, g.hasNode k = true → k ∉ e.visited →
          ((∃ u ∈ e.visited, ∃ w : ℤ, EdgeW g u k w) → e.nodeAnnotations k = none) ∧
          ((¬ ∃ u ∈ e.visited, ∃ w : ℤ, EdgeW g u k w) →
            e.nodeAnnotations k = some ("∞"))) ∧
        (∀ k, g.hasNode k = false → e.nodeAnnotations k = none) := by
  have hsn := (hasNode_iff g s).mpr hs
  have hneg := no_negative_scan g hW hnn
  refine ⟨_, runDijkstra_eq g s hs0 hsn hw hneg, ?_⟩
  intro i e he
  have hann := dijFinalState_ann g s hwf hW hnn hs
  have hsi := (dijFinalState_invs g s hwf hW hnn hs).2.1
  obtain ⟨hA, hB, hC, hD⟩ := hann.stepsAnn i e he
  refine ⟨?_, hC, hD⟩
  intro k hk
  obtain ⟨z, hz1, hz2⟩ := hB k hk
  refine ⟨z, ?_, hz2⟩
  have hkvis := hA k hk
  have hkN : k ∈ g.nodeIds := by
    apply hsi.subV
    rw [← hsi.vt]
    exact hkvis
  show (if g.hasNode k = true then some ((dijFinalState g s).distances k) else none)
      = some ((z : ℤ) : JsNum)
  rw [if_pos ((hasNode_iff g k).mpr hkN), hz1]

/-- C7 counterexample: on the weighted two-node graph, the first recorded
step leaves the declared node `B` without any annotation (its tentative
distance is finite but it is not yet finalized), so the snapshot is not
complete over all nodes. -/
theorem C7_annotation_gap :
    ∃ r : TraversalResult, runDijkstra gAB1 (some "A") = Except.ok r ∧
      gAB1.hasNode "B" = true ∧
      ∃ e : TraversalLogEntry, r.steps[0]? = some e ∧ e.nodeAnnotations "B" = none :=
  ⟨_, rfl, rfl, _, rfl, rfl⟩

/-- Witness for C7 on the concrete weighted two-node graph. -/
theorem C7_dijkstra_step_annotations_witness :
    gAB1.Wf ∧
      (∃ r : TraversalResult, runDijkstra gAB1 (some "A") = Except.ok r ∧
        ∀ (i : ℕ) (e : TraversalLogEntry), r.steps[i]? = some e →
          (∀ k ∈ e.visited, ∃ z : ℤ, r.log k = some ((z : ℤ) : JsNum) ∧
            e.nodeAnnotations k = some (toString z)) ∧
          (∀ k, gAB1.hasNode k = true → k ∉ e.visited →
            ((∃ u ∈ e.visited, ∃ w : ℤ, EdgeW gAB1 u k w) →
              e.nodeAnnotations k = none) ∧
            ((¬ ∃ u ∈ e.visited, ∃ w : ℤ, EdgeW gAB1 u k w) →
              e.nodeAnnotations k = some ("∞"))) ∧
          (∀ k, gAB1.hasNode k = false → e.nodeAnnotations k = none)) :=
  ⟨by decide, C7_dijkstra_step_annotations gAB1 "A" (by decide) (by decide) (by decide) rfl
    (by decide) (by decide)⟩

/-- The empty traversal result, used to instantiate universally quantified
result variables in witnesses. -/
def emptyResult : TraversalResult :=
  ⟨[], fun _ => none, [], none, fun _ => none⟩

/-- C8 (amended): for DFS, BFS and toposort the final recorded step agrees
with the top-level result: its `current` is the last traversal element, its
`visited` is the full traversal, and its annotations equal the result's
annotations.  For Dijkstra the final step also closes the traversal, but its
annotation of a node agrees with the top-level annotation only up to the
infinity rendering: an unreachable node is `"∞"` in the step and `"Infinity"`
in the result (the original claim of equality fails there). -/
theorem C8_final_step_consistency (g : GraphData) (hwf : g.Wf) (sid : Option String)
    (r : TraversalResult) :
    (runDFS g sid = Except.ok r → r.steps ≠ [] →
      ∃ e : TraversalLogEntry, r.steps.getLast? = some e ∧
        r.traversal.getLast? = some e.current ∧ e.visited = r.traversal ∧
        e.nodeAnnotations = r.nodeAnnotations) ∧
    (runBFS g sid = Except.ok r →
      ∃ e : TraversalLogEntry, r.steps.getLast? = some e ∧
        r.traversal.getLast? = some e.current ∧ e.visited = r.traversal ∧
        e.nodeAnnotations = r.nodeAnnotations) ∧
    (runToposort g = Except.ok r → r.steps ≠ [] →
      ∃ e : TraversalLogEntry, r.steps.getLast? = some e ∧
        r.traversal.getLast? = some e.current ∧ e.visited = r.traversal ∧
        e.nodeAnnotations = r.nodeAnnotations) ∧
    (g.Weighted → g.NonnegWeights → ∀ s : String, runDijkstra g (some s) = Except.ok r →
      ∃ e : TraversalLogEntry, r.steps.getLast? = some e ∧
        r.traversal.getLast? = some e.current ∧ e.visited = r.traversal ∧
        ∀ k : String, g.hasNode k = true →
          (e.nodeAnnotations k = r.nodeAnnotations k ∨
            (e.nodeAnnotations k = some ("∞") ∧
              r.nodeAnnotations k = some ("Infinity")))) := by
  refine ⟨?_, ?_, ?_, ?_⟩
  · intro hok hne
    have hw := runDFS_ok_unweighted g sid r hok
    rw [runDFS_eq g sid hw] at hok
    have hr := Except.ok.inj hok
    subst hr
    have hinv := dfsFinalState_inv g sid
    have hpos : 0 < (dfsFinalState g sid).steps.length := by
      cases hsn : (dfsFinalState g sid).steps
      · exact absurd hsn hne
      · simp [hsn]
    have hidx : (dfsFinalState g sid).steps.length - 1
        < (dfsFinalState g sid).steps.length := by omega
    have he : (dfsFinalState g sid).steps[(dfsFinalState g sid).steps.length - 1]?
        = some ((dfsFinalState g sid).steps[(dfsFinalState g sid).steps.length - 1]) :=
      List.getElem?_eq_getElem hidx
    obtain ⟨hc, hv, ha⟩ := hinv.stepsSpec _ _ he
    have hfull : (dfsFinalState g sid).steps.length - 1 + 1
        = (dfsFinalState g sid).result.length := by
      have := hinv.stepsLen
      omega
    refine ⟨(dfsFinalState g sid).steps[(dfsFinalState g sid).steps.length - 1],
      ?_, ?_, ?_, ?_⟩
    · show (dfsFinalState g sid).steps.getLast? = _
      rw [List.getLast?_eq_getElem?]
      exact he
    · show (dfsFinalState g sid).result.getLast? = _
      rw [List.getLast?_eq_getElem?]
      have hix : (dfsFinalState g sid).result.length - 1
          = (dfsFinalState g sid).steps.length - 1 := by
        have := hinv.stepsLen
        omega
      rw [hix]
      exact hc
    · rw [hv, hfull, List.take_length]
    · rw [ha, hfull, List.take_length, hinv.annotEq]
  · intro hok
    obtain ⟨hw, s, hsid, hs0, hn⟩ := runBFS_ok_inv g sid r hok
    subst hsid
    rw [runBFS_eq g s hw hs0 hn] at hok
    have hr := Except.ok.inj hok
    subst hr
    obtain ⟨e0, hl0, hannot0⟩ := bfsFinalState_last g s
    refine ⟨{ e0 with visited := (bfsFinalState g s).result }, ?_, ?_, rfl, ?_⟩
    · show ((bfsFinalState g s).steps.map _).getLast? = _
      rw [List.getLast?_map, hl0]
      rfl
    · show (bfsFinalState g s).result.getLast? = _
      rw [bfsFinalState_decomp g s, List.getLast?_map, hl0]
      rfl
    · exact hannot0
  · intro hok hne
    obtain ⟨hd, hlen⟩ := runToposort_ok_inv g r hok
    rw [runToposort_eq g hd, if_neg (not_not_intro hlen)] at hok
    have hr := Except.ok.inj hok
    subst hr
    have hinv := topoFinalState_inv g hwf
    have hpos : 0 < (topoFinalState g).steps.length := by
      cases hsn : (topoFinalState g).steps
      · exact absurd hsn hne
      · simp [hsn]
    have hidx : (topoFinalState g).steps.length - 1 < (topoFinalState g).steps.length := by
      omega
    have he : (topoFinalState g).steps[(topoFinalState g).steps.length - 1]?
        = some ((topoFinalState g).steps[(topoFinalState g).steps.length - 1]) :=
      List.getElem?_eq_getElem hidx
    obtain ⟨hc, hv, ha⟩ := hinv.stepsSpec _ _ he
    have hfull : (topoFinalState g).steps.length - 1 + 1
        = (topoFinalState g).traversal.length := by
      have := hinv.stepsLen
      omega
    refine ⟨(topoFinalState g).steps[(topoFinalState g).steps.length - 1],
      ?_, ?_, ?_, ?_⟩
    · show (topoFinalState g).steps.getLast? = _
      rw [List.getLast?_eq_getElem?]
      exact he
    · show (topoFinalState g).traversal.getLast? = _
      rw [List.getLast?_eq_getElem?]
      have hix : (topoFinalState g).traversal.length - 1
          = (topoFinalState g).steps.length - 1 := by
        have := hinv.stepsLen
        omega
      rw [hix]
      exact hc
    · rw [hv, hfull, List.take_length]
    · rw [ha, hfull, List.take_length, hinv.annotEq]
  · intro hW hnn s hok
    obtain ⟨hs0, hn, hw⟩ := runDijkstra_ok_inv g s r hok
    rw [runDijkstra_eq g s hs0 hn hw (no_negative_scan g hW hnn)] at hok
    have hr := Except.ok.inj hok
    subst hr
    have hsmem := (hasNode_iff g s).mp hn
    obtain ⟨hinv, hsi, hdl⟩ := dijFinalState_invs g s hwf hW hnn hsmem
    have hpq := dijFinalState_pq g s hwf hW hnn hsmem
    have hsvis := dijFinal_start_visited g s _ hinv hpq
    have htne : (dijFinalState g s).traversal ≠ [] := by
      intro h0
      rw [hsi.vt, h0] at hsvis
      exact absurd hsvis (List.not_mem_nil s)
    rcases hdl with hnil | ⟨e, he1, he2, he3, he4⟩
    · exfalso
      have hsl := hsi.stepsLen
      rw [hnil] at hsl
      exact htne (List.length_eq_zero.mp hsl.symm)
    · refine ⟨e, he1, he3, ?_, ?_⟩
      · rw [he2, hsi.vt]
      · intro k hk
        rcases hdk : (dijFinalState g s).distances k with _ | z
        · right
          constructor
          · rw [he4]
            exact dijAnnotations_node_top g _ _ k hk hdk
          · show (if g.hasNode k = true
                then some (jsNumToString ((dijFinalState g s).distances k)) else none)
              = some ("Infinity")
            rw [if_pos hk, hdk]
            rfl
        · left
          have hkvis : k ∈ (dijFinalState g s).visited := by
            by_contra hkv
            have htop : (dijFinalState g s).distances k = ⊤ := by
              by_contra hfin
              have hmem := hinv.unvisitedEntry k hkv hfin
              rw [hpq] at hmem
              exact absurd hmem (List.not_mem_nil _)
            rw [hdk] at htop
            exact Option.noConfusion htop
          rw [he4]
          rw [dijAnnotations_vis_int g _ _ k z hk hdk hkvis]
          show some (toString z) = (if g.hasNode k = true
              then some (jsNumToString ((dijFinalState g s).distances k)) else none)
          rw [if_pos hk, hdk]
          rfl

/-- C8 counterexample: on the weighted graph with an unreachable node `B`,
the final step labels `B` with `"∞"` while the top-level annotations read
`"Infinity"` — replaying the steps does not reproduce the result's
annotations. -/
theorem C8_infinity_mismatch :
    ∃ r : TraversalResult, runDijkstra gAB0 (some "A") = Except.ok r ∧
      ∃ e : TraversalLogEntry, r.steps.getLast? = some e ∧
        e.nodeAnnotations "B" = some ("∞") ∧ r.nodeAnnotations "B" = some ("Infinity") :=
  ⟨_, rfl, _, rfl, rfl, rfl⟩

/-- Witness for C8 at a concrete graph and result. -/
theorem C8_final_step_consistency_witness :
    gAB.Wf ∧
      ((runDFS gAB (some "A") = Except.ok emptyResult → emptyResult.steps ≠ [] →
        ∃ e : TraversalLogEntry, emptyResult.steps.getLast? = some e ∧
          emptyResult.traversal.getLast? = some e.current ∧
          e.visited = emptyResult.traversal ∧
          e.nodeAnnotations = emptyResult.nodeAnnotations) ∧
      (runBFS gAB (some "A") = Except.ok emptyResult →
        ∃ e : TraversalLogEntry, emptyResult.steps.getLast? = some e ∧
          emptyResult.traversal.getLast? = some e.current ∧
          e.visited = emptyResult.traversal ∧
          e.nodeAnnotations = emptyResult.nodeAnnotations) ∧
      (runToposort gAB = Except.ok emptyResult → emptyResult.steps ≠ [] →
        ∃ e : TraversalLogEntry, emptyResult.steps.getLast? = some e ∧
          emptyResult.traversal.getLast? = some e.current ∧
          e.visited = emptyResult.traversal ∧
          e.nodeAnnotations = emptyResult.nodeAnnotations) ∧
      (gAB.Weighted → gAB.NonnegWeights → ∀ s : String,
        runDijkstra gAB (some s) = Except.ok emptyResult →
        ∃ e : TraversalLogEntry, emptyResult.steps.getLast? = some e ∧
          emptyResult.traversal.getLast? = some e.current ∧
          e.visited = emptyResult.traversal ∧
          ∀ k : String, gAB.hasNode k = true →
            (e.nodeAnnotations k = emptyResult.nodeAnnotations k ∨
              (e.nodeAnnotations k = some ("∞") ∧
                emptyResult.nodeAnnotations k = some ("Infinity"))))) :=
  ⟨by decide, C8_final_step_consistency gAB (by decide) (some "A") emptyResult⟩

/-- C9 (amended): on the 5-node scenario graph, `runDFS` from `A` starts at
`A` and visits every node exactly once; since neighbors are pushed in stack
order, the *last*-listed neighbor is popped first is false — the first-listed
neighbor is explored first — and the deterministic traversal is
`A, B, D, E, C`, not the order `A, C, E, D, B` the specification printed. -/
theorem C9_dfs_scenario :
    ∃ r : TraversalResult, runDFS gABCDE (some "A") = Except.ok r ∧
      r.traversal = ["A", "B", "D", "E", "C"] ∧ r.traversal.head? = some "A" ∧
      ∀ nd ∈ gABCDE.nodes, r.traversal.count nd.id = 1 := by
  refine ⟨_, rfl, rfl, rfl, ?_⟩
  decide

/-- C9 counterexample: the actual traversal differs from the order
`A, C, E, D, B` asserted by the specification. -/
theorem C9_not_spec_order :
    ∃ r : TraversalResult, runDFS gABCDE (some "A") = Except.ok r ∧
      r.traversal ≠ ["A", "C", "E", "D", "B"] := by
  refine ⟨_, rfl, ?_⟩
  decide

/-- C10: `runDFS` never rejects a missing or unknown start id — on any
unweighted graph it returns a full result covering every declared node for
every startId argument — and the only rejected input is a weighted graph. -/
theorem C10_dfs_start_robust (g : GraphData) (sid : Option String) :
    (g.isWeighted = false →
      ∃ r : TraversalResult, runDFS g sid = Except.ok r ∧
        ∀ nd ∈ g.nodes, nd.id ∈ r.traversal) ∧
    (g.isWeighted = true →
      runDFS g sid = Except.error ("DFS does not run on a weighted graph")) := by
  constructor
  · intro hw
    refine ⟨_, runDFS_eq g sid hw, ?_⟩
    intro nd hnd
    exact dfsFinalState_covers g sid nd hnd
  · intro hw
    unfold runDFS
    rw [hw]
    rfl
